import Mathlib

/-!
Shallow embedding of the erdtree core pipeline (waltarix/erdtree, v1.3 line):
the Aggregator loop and Tree assembly of `src/fs/erdtree/tree/mod.rs`, the
`Node` data of `src/fs/erdtree/node.rs`, and the `Display` renderers of both
files.  Filesystem paths are modelled as lists of components; `PathBuf::pop`
becomes dropping the last component.  `HashMap<PathBuf, Vec<Node>>` is
modelled as an association list with unique keys; the traversal loop only
inserts at absent keys, so this matches the map semantics exactly.
-/

namespace Erdtree

/-- A filesystem path, as its list of components (the model of `PathBuf` for
relative paths without a root component; no claim depends on the `/` root
special case of `PathBuf::pop`). -/
abbrev FsPath := List String

/-- Model of `PathBuf::pop` on the owned clone in `Node::parent_path_buf`:
dropping the final component, `none` when there is no parent component. -/
def parentPath (p : FsPath) : Option FsPath :=
  if p.isEmpty then none else some p.dropLast

/-- Model of rendering a path as the underlying `OsStr` (`Path::as_os_str`
followed by `to_string_lossy`): components joined by the separator. -/
def pathString (p : FsPath) : String :=
  String.intercalate "/" p

/-- Model of an `ansi_term::Style`: painting wraps the text in an ANSI
prefix and suffix; the default style has both empty, so painting with it is
the identity, matching `Style::default().paint`. -/
structure Style where
  pre : String
  post : String
deriving DecidableEq, Repr

def Style.paint (st : Style) (entity : String) : String :=
  st.pre ++ entity ++ st.post

def defaultStyle : Style := ⟨"", ""⟩

/-- Model of `std::fs::FileType` as the four classifications the program
distinguishes (`is_dir`, `is_file`, `is_symlink`, anything else). -/
inductive FType where
  | dir
  | file
  | symlink
  | other
deriving DecidableEq, Repr

/-- Modelled from the spec: `fs/erdtree/disk_usage.rs` is not under `src/`;
per the spec a size value is a byte count (`u64`), and
`dir_size += node.file_size.unwrap_or(0)` in `Tree::assemble_tree` adds them
as integers, so `FileSize` is modelled as a natural number of bytes. -/
abbrev FileSize := Nat

/-- The `Node` of `src/fs/erdtree/node.rs`, with its fields in source order.
`inode` (device and inode number, from the missing `fs/inode.rs`) is carried
as an opaque pair; no claim inspects it. -/
inductive Node where
  | mk (depth : Nat) (file_size : Option FileSize) (children : Option (List Node))
       (file_name : String) (file_type : Option FType) (inode : Option (Nat × Nat))
       (path : FsPath) (show_icon : Bool) (style : Style)
       (symlink_target : Option FsPath) (symlink_target_style : Style)
deriving Repr

namespace Node

def depth : Node → Nat
  | .mk d _ _ _ _ _ _ _ _ _ _ => d

def file_size : Node → Option FileSize
  | .mk _ fs _ _ _ _ _ _ _ _ _ => fs

def children : Node → Option (List Node)
  | .mk _ _ c _ _ _ _ _ _ _ _ => c

def file_name : Node → String
  | .mk _ _ _ nm _ _ _ _ _ _ _ => nm

def file_type : Node → Option FType
  | .mk _ _ _ _ ft _ _ _ _ _ _ => ft

def inode : Node → Option (Nat × Nat)
  | .mk _ _ _ _ _ ino _ _ _ _ _ => ino

def path : Node → FsPath
  | .mk _ _ _ _ _ _ p _ _ _ _ => p

def show_icon : Node → Bool
  | .mk _ _ _ _ _ _ _ si _ _ _ => si

def style : Node → Style
  | .mk _ _ _ _ _ _ _ _ st _ _ => st

def symlink_target : Node → Option FsPath
  | .mk _ _ _ _ _ _ _ _ _ tgt _ => tgt

def symlink_target_style : Node → Style
  | .mk _ _ _ _ _ _ _ _ _ _ tst => tst

/-- `Node::file_name_lossy`; `file_name` is already a `String` in the model,
the lossy `OsStr` conversion is the identity here. -/
def file_name_lossy (n : Node) : String := n.file_name

/-- `Node::is_dir`: `file_type().map(|ft| ft.is_dir()).unwrap_or(false)`. -/
def is_dir (n : Node) : Bool :=
  match n.file_type with
  | some FType.dir => true
  | _ => false

/-- `Node::is_symlink`. -/
def is_symlink (n : Node) : Bool := n.symlink_target.isSome

/-- `Node::symlink_target_path`. -/
def symlink_target_path (n : Node) : Option FsPath := n.symlink_target

/-- `Node::symlink_target_file_name`: the active code is
`self.symlink_target_path().map(|path| path.as_os_str())`, which yields the
whole target path (the `.file_name()` version is commented out in the
source), rendered lossily. -/
def symlink_target_file_name (n : Node) : Option String :=
  n.symlink_target_path.map pathString

/-- `Node::parent_path_buf`: clone the path and `pop` the last component. -/
def parent_path_buf (n : Node) : Option FsPath := parentPath n.path

/-- `Node::set_children`. -/
def set_children : Node → List Node → Node
  | .mk d fs _ nm ft ino p si st tgt tst, cs => .mk d fs (some cs) nm ft ino p si st tgt tst

/-- `Node::set_file_size`. -/
def set_file_size : Node → FileSize → Node
  | .mk d _ c nm ft ino p si st tgt tst, sz => .mk d (some sz) c nm ft ino p si st tgt tst

/-- `Node::stylize`. -/
def stylize (n : Node) (entity : String) : String := n.style.paint entity

/-- `Node::stylize_link_name`: symlink name in the node's own style, an
arrow, then the target (independently styled with the target's style). -/
def stylize_link_name (n : Node) : Option String :=
  n.symlink_target_file_name.map fun name =>
    n.stylize n.file_name_lossy ++ " -> " ++ n.symlink_target_style.paint name

end Node

/-- The error cases of the aggregation loop.  Modelled from the spec:
`fs/error.rs` is not under `src/`; the two variants are the fatal
"expected parent" and "missing root" conditions the spec names. -/
inductive Error where
  | expectedParent
  | missingRoot
deriving DecidableEq, Repr

/-- `Branches = HashMap<PathBuf, Vec<Node>>`, as an association list with
unique keys (every insertion in the loop is guarded by an absence check). -/
abbrev Branches := List (FsPath × List Node)

/-- `HashMap::get`. -/
def lookupB : Branches → FsPath → Option (List Node)
  | [], _ => none
  | e :: rest, k => if e.1 = k then some e.2 else lookupB rest k

/-- `HashMap::contains_key`. -/
def containsB (b : Branches) (k : FsPath) : Bool := (lookupB b k).isSome

/-- `HashMap::insert` (the loop only calls it at absent keys; removing any
stale binding first keeps keys unique in the model). -/
def eraseB : Branches → FsPath → Branches
  | [], _ => []
  | e :: rest, k => if e.1 = k then eraseB rest k else e :: eraseB rest k

def insertB (b : Branches) (k : FsPath) (v : List Node) : Branches :=
  (k, v) :: eraseB b k

/-- `branches.get_mut(&parent).map(|mut_ref| mut_ref.push(node))`: append to
the bucket at `k` (a no-op when the key is absent). -/
def pushB : Branches → FsPath → Node → Branches
  | [], _, _ => []
  | e :: rest, k, n =>
    if e.1 = k then (e.1, e.2 ++ [n]) :: pushB rest k n else e :: pushB rest k n

/-- The bucket pre-creation for directories (lines 73-78): a directory gets
an empty bucket keyed by its own path unless one already exists. -/
def preC (b : Branches) (n : Node) : Branches :=
  if n.is_dir ∧ ¬ containsB b n.path then insertB b n.path [] else b

/-- One iteration of the receive loop in `Tree::traverse` (lines 72-93 of
`src/fs/erdtree/tree/mod.rs`): pre-create a directory's own bucket, capture a
depth-0 directory as root, otherwise file the node under its parent's bucket
when that bucket exists and create an empty bucket for the parent when it
does not. -/
def step (root : Option Node) (b : Branches) (n : Node) :
    Except Error (Option Node × Branches) :=
  let b1 := preC b n
  if n.is_dir ∧ n.depth = 0 then Except.ok (some n, b1)
  else
    match n.parent_path_buf with
    | none => Except.error Error.expectedParent
    | some par =>
      if containsB b1 par then Except.ok (root, pushB b1 par n)
      else Except.ok (root, insertB b1 par [])

/-- The whole receive loop, over the stream of nodes in arrival order. -/
def traverseFold : List Node → Option Node × Branches →
    Except Error (Option Node × Branches)
  | [], acc => Except.ok acc
  | n :: rest, acc =>
    match step acc.1 acc.2 n with
    | Except.error e => Except.error e
    | Except.ok acc1 => traverseFold rest acc1

/-- The aggregation thread of `Tree::traverse`: run the loop from an empty
state, then `root.ok_or(Error::MissingRoot)`. -/
def aggregate (s : List Node) : Except Error (Node × Branches) :=
  match traverseFold s (none, []) with
  | Except.error e => Except.error e
  | Except.ok (root?, b) =>
    match root? with
    | none => Except.error Error.missingRoot
    | some r => Except.ok (r, b)

/-- Modelled from the spec: `fs/erdtree/order.rs` is not under `src/`.  Per
the spec (§4.3) and the CLI (`cli.rs`, default `Order::Name`), the supported
orders are by-name (lexicographic on the display name), by-size ascending,
by-size descending, and no sorting. -/
inductive Order where
  | name
  | size
  | sizeRev
  | none
deriving DecidableEq, Repr

/-- Modelled from the spec: the sort comparator for each order, as the
"less or equal" Boolean the stable sort consumes; `Order::None` has no
comparator (children keep arrival order). -/
def Order.comparator : Order → Option (Node → Node → Bool)
  | Order.name => some fun a b => a.file_name ≤ b.file_name
  | Order.size => some fun a b => a.file_size.getD 0 ≤ b.file_size.getD 0
  | Order.sizeRev => some fun a b => b.file_size.getD 0 ≤ a.file_size.getD 0
  | Order.none => Option.none

/-- `Vec::sort_by` is a stable sort by the comparator; a stable sort's output
is uniquely determined by the comparator, so the (stable) insertion sort is
an exact model of it. -/
def sortNodes (le : Node → Node → Bool) (l : List Node) : List Node :=
  List.insertionSort (fun a b => le a b = true) l

/-- The running total `dir_size` over a children list. -/
def sumSizes (cs : List Node) : Nat :=
  cs.foldl (fun acc c => acc + c.file_size.getD 0) 0

/-- The number of map entries plus stored nodes: the measure that shrinks at
every recursive call of `Tree::assemble_tree` (the Rust recursion terminates
because `branches.remove` shrinks the map; the fuel below is that measure). -/
def msize (b : Branches) : Nat := (b.map fun e => e.2.length + 1).sum

/-- The `for` loop inside `Tree::assemble_tree`, abstracted over the
recursive call: each child is recursed into when it is a directory,
threading the shrinking map left to right. -/
def assembleStep (go : Node → Branches → Node × Branches) :
    List Node → Branches → List Node × Branches
  | [], b => ([], b)
  | c :: rest, b =>
    let head := if c.is_dir then go c b else (c, b)
    let tail := assembleStep go rest head.2
    (head.1 :: tail.1, tail.2)

/-- `Tree::assemble_tree` (lines 125-153 of `src/fs/erdtree/tree/mod.rs`),
with explicit state passing for the two `&mut` arguments: remove the current
node's bucket, attach it as children, recurse into directory children,
accumulate `dir_size`, set it when positive, and sort the children when the
order has a comparator.  `fuel` bounds the recursion depth; with
`fuel > msize b` it never runs out (each level removes a bucket). -/
def assembleGo : Nat → Node → Branches → Order → Node × Branches
  | 0, n, b, _ => (n, b)
  | Nat.succ fuel, n, b, ord =>
    match lookupB b n.path with
    | Option.none => (n, b)
    | some cs =>
      let b1 := eraseB b n.path
      let res := assembleStep (fun c bc => assembleGo fuel c bc ord) cs b1
      let dirSize := sumSizes res.1
      let n1 := Node.set_children n res.1
      let n2 := if 0 < dirSize then Node.set_file_size n1 dirSize else n1
      let n3 :=
        match Order.comparator ord with
        | some le => Node.set_children n2 (sortNodes le res.1)
        | Option.none => n2
      (n3, res.2)

/-- The per-level child loop at a given fuel. -/
def assembleList (fuel : Nat) (cs : List Node) (b : Branches) (ord : Order) :
    List Node × Branches :=
  assembleStep (fun c bc => assembleGo fuel c bc ord) cs b

/-- `Tree::assemble_tree` as called from `Tree::traverse`, with enough fuel
for its complete recursion. -/
def assemble_tree (root : Node) (b : Branches) (ord : Order) : Node × Branches :=
  assembleGo (msize b + 1) root b ord

/-- The aggregation plus assembly of `Tree::traverse`, keeping the final
state of the branch map visible (the map is dropped by the caller in Rust;
claims about its final contents inspect this). -/
def assembledComponents (s : List Node) (ord : Order) :
    Except Error (Node × Branches) :=
  match aggregate s with
  | Except.error e => Except.error e
  | Except.ok rb => Except.ok (assemble_tree rb.1 rb.2 ord)

/-- `Tree::traverse`: the assembled root node. -/
def Tree.traverse (s : List Node) (ord : Order) : Except Error Node :=
  match assembledComponents s ord with
  | Except.error e => Except.error e
  | Except.ok rb => Except.ok rb.1

/-- The `Tree` struct of `src/fs/erdtree/tree/mod.rs`. -/
structure Tree where
  level : Option Nat
  order : Order
  root : Node

/-- `Tree::new`. -/
def Tree.new (s : List Node) (ord : Order) (level : Option Nat) :
    Except Error Tree :=
  match Tree.traverse s ord with
  | Except.error e => Except.error e
  | Except.ok root => Except.ok ⟨level, ord, root⟩

/-! ## Rendering -/

/-- `SEP`: padding between tree branches. -/
def SEP : String := "   "

/-- `VT`: the `│` box drawing character (magenta), plus padding. -/
def VT : String := "\x1b[35m│\x1b[0m  "

/-- `UPRT`: the `└─` box drawing characters (magenta), plus padding. -/
def UPRT : String := "\x1b[35m└─\x1b[0m "

/-- `VTRT`: the `├─` box drawing characters (magenta), plus padding. -/
def VTRT : String := "\x1b[35m├─\x1b[0m "

/-- `usize::MAX`, the level used when none is configured. -/
def USIZE_MAX : Nat := 2 ^ 64 - 1

/-- Modelled from the spec: the external glyph resolver (§1 treats the icon
tables of `icons.rs` as an external capability; the composite lookup of
`Node::get_icon` — extension, then file type, then file name, then the
default glyph — is collapsed into one resolved glyph).  Every claim is
settled with icons disabled, where this value is never consulted. -/
def glyphResolver (_ : Node) : String := ""

/-- `Node::get_icon`: `None` unless icon display is enabled. -/
def Node.get_icon (n : Node) : Option String :=
  if n.show_icon then some (glyphResolver n) else none

/-- The size part of `Node`'s `Display`: `format!("({})", size)` when a size
is present, the empty string otherwise (`FileSize`'s own `Display`, from the
missing `disk_usage.rs`, is modelled from the spec as the decimal byte
count). -/
def Node.size_display (n : Node) : String :=
  match n.file_size with
  | some sz => "(" ++ toString sz ++ ")"
  | none => ""

/-- `impl Display for Node` (lines 314-342 of `src/fs/erdtree/node.rs`):
icon (padded by one space when present), the styled name — the
symlink-arrow form when the node is a symlink — a space, and the size. -/
def Node.display (n : Node) : String :=
  let size := n.size_display
  let iconParts : String × Nat :=
    match n.get_icon with
    | some icon => (icon, 1)
    | none => ("", 0)
  let styled_name :=
    match n.stylize_link_name with
    | some name => name
    | none => n.stylize n.file_name_lossy
  iconParts.1 ++ String.mk (List.replicate iconParts.2 ' ') ++ styled_name ++ " " ++ size

/-- `extend_output`. -/
def extendLine (pfx : String) (n : Node) : String := pfx ++ n.display ++ "\n"

mutual
/-- The `traverse` closure of `impl Display for Tree` (lines 168-210 of
`src/fs/erdtree/tree/mod.rs`), over a children slice with the accumulated
`base_prefix`. -/
def fmtChildren : List Node → String → Nat → String
  | [], _, _ => ""
  | c :: rest, base, level =>
    fmtOne c rest.isEmpty base level ++ fmtChildren rest base level

/-- One loop iteration of the `traverse` closure: print the child's line with
its branch connector, then descend when the child is a displayable directory. -/
def fmtOne : Node → Bool → String → Nat → String
  | Node.mk d fs cs nm ft ino p si st tgt tst, lastEntry, base, level =>
    let c := Node.mk d fs cs nm ft ino p si st tgt tst
    let pfx := base ++ (if lastEntry then UPRT else VTRT)
    let line := extendLine pfx c
    let sub :=
      if ¬ c.is_dir ∨ level < c.depth + 1 then ""
      else
        let newBase := base ++ (if c.is_dir ∧ lastEntry then SEP else VT)
        fmtChildrenO cs newBase level
    line ++ sub

/-- Descend into `child.children()` when present. -/
def fmtChildrenO : Option (List Node) → String → Nat → String
  | Option.none, _, _ => ""
  | some cs, base, level => fmtChildren cs base level
end

/-- `impl Display for Tree` (lines 156-219): the root line carries no
prefix; `level` is `usize::MAX` when unset. -/
def Tree.display (t : Tree) : String :=
  let root := t.root
  let level := t.level.getD USIZE_MAX
  extendLine "" root ++ fmtChildrenO root.children "" level

mutual
/-- The displayed entries of the `traverse` closure, each as the node paired
with the prefix its line carries; `fmtChildren` is their concatenation. -/
def entriesChildren : List Node → String → Nat → List (Node × String)
  | [], _, _ => []
  | c :: rest, base, level =>
    entriesOne c rest.isEmpty base level ++ entriesChildren rest base level

def entriesOne : Node → Bool → String → Nat → List (Node × String)
  | Node.mk d fs cs nm ft ino p si st tgt tst, lastEntry, base, level =>
    let c := Node.mk d fs cs nm ft ino p si st tgt tst
    let pfx := base ++ (if lastEntry then UPRT else VTRT)
    let sub :=
      if ¬ c.is_dir ∨ level < c.depth + 1 then []
      else
        let newBase := base ++ (if c.is_dir ∧ lastEntry then SEP else VT)
        entriesChildrenO cs newBase level
    (c, pfx) :: sub

def entriesChildrenO : Option (List Node) → String → Nat → List (Node × String)
  | Option.none, _, _ => []
  | some cs, base, level => entriesChildren cs base level
end

/-- The full displayed entry list: the root with the empty prefix, then the
children's entries. -/
def Tree.entries (t : Tree) : List (Node × String) :=
  (t.root, "") :: entriesChildrenO t.root.children "" (t.level.getD USIZE_MAX)

/-- The prefix the spec (§4.4) ascribes to a line: one continuation segment
per ancestor below the root — blank when that ancestor was its parent's last
child, the vertical bar otherwise — then the branch connector chosen by
whether the node itself is the last sibling. -/
def specPfx (flags : List Bool) (lastEntry : Bool) : String :=
  String.join (flags.map fun f => if f then SEP else VT) ++
    (if lastEntry then UPRT else VTRT)

mutual
/-- The entry list recomputed top-down from ancestor lastness flags instead
of an accumulated prefix string. -/
def specChildren : List Node → List Bool → Nat → List (Node × String)
  | [], _, _ => []
  | c :: rest, flags, level =>
    specOne c rest.isEmpty flags level ++ specChildren rest flags level

def specOne : Node → Bool → List Bool → Nat → List (Node × String)
  | Node.mk d fs cs nm ft ino p si st tgt tst, lastEntry, flags, level =>
    let c := Node.mk d fs cs nm ft ino p si st tgt tst
    let sub :=
      if ¬ c.is_dir ∨ level < c.depth + 1 then []
      else specChildrenO cs (flags ++ [lastEntry]) level
    (c, specPfx flags lastEntry) :: sub

def specChildrenO : Option (List Node) → List Bool → Nat → List (Node × String)
  | Option.none, _, _ => []
  | some cs, flags, level => specChildren cs flags level
end

/-! ## Pruning and tree traversal helpers -/

mutual
/-- The preorder listing of a node and all its attached descendants. -/
def preorder : Node → List Node
  | Node.mk d fs cs nm ft ino p si st tgt tst =>
    Node.mk d fs cs nm ft ino p si st tgt tst :: preorderO cs

def preorderO : Option (List Node) → List Node
  | Option.none => []
  | some cs => preorderL cs

def preorderL : List Node → List Node
  | [] => []
  | c :: rest => preorder c ++ preorderL rest
end

/-- The number of attached children of a node (none attached counts as
zero). -/
def numChildren (n : Node) : Nat := (n.children.getD []).length

mutual
/-- `Node::prune_directories` (lines 102-114 of `src/render/tree/node.rs`),
with the `&mut self` mutation made explicit: the node keeps all its fields
and its children list is rebuilt by the `retain_mut` loop (the `none` of
this model's optional children plays the empty `Vec`). -/
def pruneNode : Node → Node
  | Node.mk d fs cs nm ft ino p si st tgt tst =>
    Node.mk d fs (pruneO cs) nm ft ino p si st tgt tst

def pruneO : Option (List Node) → Option (List Node)
  | Option.none => Option.none
  | some cs => some (pruneL cs)

/-- The `retain_mut` closure of `prune_directories`, one child at a time:
a non-directory child is kept (`true`); a directory child with children
(`node.has_children()`, i.e. `0 < numChildren`) is pruned in place and
kept exactly when it still has children afterwards; a childless directory
child is dropped (`false`). -/
def pruneL : List Node → List Node
  | [] => []
  | c :: rest =>
    if c.is_dir then
      if 0 < numChildren c then
        let c1 := pruneNode c
        if 0 < numChildren c1 then c1 :: pruneL rest else pruneL rest
      else pruneL rest
    else c :: pruneL rest
end

mutual
/-- Every attached-children list hangs off a directory (true of every
assembled tree: buckets are only attached to the root and to directory
children that are recursed into). -/
def onlyDirsB : Node → Bool
  | Node.mk d fs cs nm ft ino p si st tgt tst =>
    let n := Node.mk d fs cs nm ft ino p si st tgt tst
    (cs.isNone || n.is_dir) && onlyDirsBO cs

def onlyDirsBO : Option (List Node) → Bool
  | Option.none => true
  | some cs => onlyDirsBL cs

def onlyDirsBL : List Node → Bool
  | [] => true
  | c :: rest => onlyDirsB c && onlyDirsBL rest
end

mutual
/-- The stored `depth` field of every node agrees with its structural depth
in the tree, counting the root as `d`. -/
def depthOkB : Nat → Node → Bool
  | d, Node.mk dep _ cs _ _ _ _ _ _ _ _ =>
    (dep == d) && depthOkBO (d + 1) cs

def depthOkBO : Nat → Option (List Node) → Bool
  | _, Option.none => true
  | d, some cs => depthOkBL d cs

def depthOkBL : Nat → List Node → Bool
  | _, [] => true
  | d, c :: rest => depthOkB d c && depthOkBL d rest
end

/-! ## Basic lemmas about `Node` -/

namespace Node

@[simp] theorem depth_set_children (n : Node) (cs : List Node) :
    (n.set_children cs).depth = n.depth := by cases n <;> rfl

@[simp] theorem path_set_children (n : Node) (cs : List Node) :
    (n.set_children cs).path = n.path := by cases n <;> rfl

@[simp] theorem file_name_set_children (n : Node) (cs : List Node) :
    (n.set_children cs).file_name = n.file_name := by cases n <;> rfl

@[simp] theorem file_type_set_children (n : Node) (cs : List Node) :
    (n.set_children cs).file_type = n.file_type := by cases n <;> rfl

@[simp] theorem is_dir_set_children (n : Node) (cs : List Node) :
    (n.set_children cs).is_dir = n.is_dir := by cases n <;> rfl

@[simp] theorem file_size_set_children (n : Node) (cs : List Node) :
    (n.set_children cs).file_size = n.file_size := by cases n <;> rfl

@[simp] theorem children_set_children (n : Node) (cs : List Node) :
    (n.set_children cs).children = some cs := by cases n <;> rfl

@[simp] theorem depth_set_file_size (n : Node) (sz : FileSize) :
    (n.set_file_size sz).depth = n.depth := by cases n <;> rfl

@[simp] theorem path_set_file_size (n : Node) (sz : FileSize) :
    (n.set_file_size sz).path = n.path := by cases n <;> rfl

@[simp] theorem file_name_set_file_size (n : Node) (sz : FileSize) :
    (n.set_file_size sz).file_name = n.file_name := by cases n <;> rfl

@[simp] theorem file_type_set_file_size (n : Node) (sz : FileSize) :
    (n.set_file_size sz).file_type = n.file_type := by cases n <;> rfl

@[simp] theorem is_dir_set_file_size (n : Node) (sz : FileSize) :
    (n.set_file_size sz).is_dir = n.is_dir := by cases n <;> rfl

@[simp] theorem file_size_set_file_size (n : Node) (sz : FileSize) :
    (n.set_file_size sz).file_size = some sz := by cases n <;> rfl

@[simp] theorem children_set_file_size (n : Node) (sz : FileSize) :
    (n.set_file_size sz).children = n.children := by cases n <;> rfl

end Node

/-! ## Lemmas about the branch map -/

@[simp] theorem lookupB_nil (k : FsPath) : lookupB [] k = none := rfl

theorem lookupB_cons (e : FsPath × List Node) (b : Branches) (k : FsPath) :
    lookupB (e :: b) k = if e.1 = k then some e.2 else lookupB b k := rfl

theorem lookupB_eraseB (b : Branches) (k k' : FsPath) :
    lookupB (eraseB b k) k' = if k' = k then none else lookupB b k' := by
  induction b with
  | nil => simp [eraseB, ite_self]
  | cons e rest ih =>
    simp only [eraseB]
    by_cases h1 : e.1 = k
    · rw [if_pos h1, ih]
      by_cases h2 : k' = k
      · simp [h2]
      · have hne : ¬ e.1 = k' := fun hh => h2 (hh.symm.trans h1)
        simp only [if_neg h2, lookupB_cons, if_neg hne]
    · rw [if_neg h1]
      simp only [lookupB_cons]
      by_cases h3 : e.1 = k'
      · have hne2 : ¬ k' = k := fun hh => h1 (h3.trans hh)
        simp only [if_pos h3, if_neg hne2, lookupB_cons, if_pos h3]
      · simp only [if_neg h3, ih]

theorem lookupB_pushB (b : Branches) (k k' : FsPath) (n : Node) :
    lookupB (pushB b k n) k' =
      if k' = k then (lookupB b k).map (fun cs => cs ++ [n]) else lookupB b k' := by
  induction b with
  | nil => simp [pushB, ite_self]
  | cons e rest ih =>
    simp only [pushB]
    by_cases h1 : e.1 = k
    · rw [if_pos h1]
      by_cases h3 : e.1 = k'
      · have h2 : k' = k := h3.symm.trans h1
        simp only [lookupB_cons, if_pos h3, if_pos h2, if_pos h1]
        rfl
      · have h2 : ¬ k' = k := fun hh => h3 (h1.trans hh.symm)
        simp only [lookupB_cons, if_neg h3, if_neg h2, ih, if_neg h2]
    · rw [if_neg h1]
      by_cases h3 : e.1 = k'
      · have h2 : ¬ k' = k := fun hh => h1 (h3.trans hh)
        simp only [lookupB_cons, if_pos h3, if_neg h2]
      · simp only [lookupB_cons, if_neg h3, ih]
        by_cases h2 : k' = k
        · simp only [if_pos h2, lookupB_cons, if_neg h1]
        · simp only [if_neg h2]

theorem lookupB_insertB (b : Branches) (k k' : FsPath) (v : List Node) :
    lookupB (insertB b k v) k' = if k' = k then some v else lookupB b k' := by
  simp only [insertB, lookupB_cons]
  by_cases h : k' = k
  · rw [if_pos h, if_pos h.symm]
  · have hne : ¬ k = k' := fun hh => h hh.symm
    rw [if_neg h, if_neg hne, lookupB_eraseB, if_neg h]

theorem containsB_iff (b : Branches) (k : FsPath) :
    containsB b k = true ↔ ∃ cs, lookupB b k = some cs := by
  unfold containsB
  cases h : lookupB b k <;> simp [Option.isSome, h]

theorem containsB_eq_false (b : Branches) (k : FsPath) :
    containsB b k = false ↔ lookupB b k = none := by
  unfold containsB
  cases h : lookupB b k <;> simp [Option.isSome, h]

theorem msize_eraseB_le (b : Branches) (k : FsPath) :
    msize (eraseB b k) ≤ msize b := by
  induction b with
  | nil => simp [eraseB]
  | cons e rest ih =>
    by_cases h : e.1 = k
    · simp only [eraseB, if_pos h, msize, List.map_cons, List.sum_cons]
      exact le_trans ih (Nat.le_add_left _ _)
    · simp only [eraseB, if_neg h, msize, List.map_cons, List.sum_cons]
      exact Nat.add_le_add_left ih _

theorem msize_eraseB_lt (b : Branches) (k : FsPath) (cs : List Node)
    (h : lookupB b k = some cs) : msize (eraseB b k) < msize b := by
  induction b with
  | nil => simp [lookupB] at h
  | cons e rest ih =>
    by_cases h1 : e.1 = k
    · simp only [eraseB, if_pos h1, msize, List.map_cons, List.sum_cons]
      calc msize (eraseB rest k) ≤ msize rest := msize_eraseB_le rest k
        _ < e.2.length + 1 + msize rest := by omega
    · rw [lookupB_cons, if_neg h1] at h
      simp only [eraseB, if_neg h1, msize, List.map_cons, List.sum_cons]
      exact Nat.add_lt_add_left (ih h) _

/-- The restriction of the branch map to the keys extending `k`: the part of
the map an assembly rooted at path `k` can see. -/
def restrictB : Branches → FsPath → Branches
  | [], _ => []
  | e :: rest, k => if k <+: e.1 then e :: restrictB rest k else restrictB rest k

theorem lookupB_restrictB (b : Branches) (k p : FsPath) :
    lookupB (restrictB b k) p = if k <+: p then lookupB b p else none := by
  induction b with
  | nil => simp [restrictB, ite_self]
  | cons e rest ih =>
    by_cases h1 : k <+: e.1
    · simp only [restrictB, if_pos h1, lookupB_cons]
      by_cases h2 : e.1 = p
      · subst h2
        rw [if_pos rfl, if_pos h1, if_pos rfl]
      · rw [if_neg h2, ih]
        by_cases h3 : k <+: p
        · rw [if_pos h3, if_pos h3, if_neg h2]
        · rw [if_neg h3, if_neg h3]
    · simp only [restrictB, if_neg h1, ih]
      by_cases h3 : k <+: p
      · have h2 : ¬ e.1 = p := fun hh => h1 (hh ▸ h3)
        rw [if_pos h3, if_pos h3, lookupB_cons, if_neg h2]
      · rw [if_neg h3, if_neg h3]

/-! ## Path and parent lemmas -/

theorem parentPath_eq_some (p q : FsPath) (h : parentPath p = some q) :
    q = p.dropLast ∧ p ≠ [] := by
  unfold parentPath at h
  by_cases hp : p.isEmpty
  · rw [if_pos hp] at h; exact absurd h (by simp)
  · rw [if_neg hp] at h
    refine ⟨(Option.some_injective _ h).symm, ?_⟩
    simpa [List.isEmpty_iff] using hp

theorem parentPath_prefix (p q : FsPath) (h : parentPath p = some q) : q <+: p := by
  obtain ⟨hq, _⟩ := parentPath_eq_some p q h
  rw [hq]; exact List.dropLast_prefix p

theorem parentPath_length (p q : FsPath) (h : parentPath p = some q) :
    q.length + 1 = p.length := by
  obtain ⟨hq, hne⟩ := parentPath_eq_some p q h
  rw [hq, List.length_dropLast]
  have : p.length ≠ 0 := by simpa using hne
  omega

theorem parentPath_ne (p q : FsPath) (h : parentPath p = some q) : q ≠ p := by
  intro hh
  have := parentPath_length p q h
  rw [hh] at this
  omega

theorem parentPath_of_append (q : FsPath) (x : String) :
    parentPath (q ++ [x]) = some q := by
  unfold parentPath
  rw [if_neg (by simp), List.dropLast_concat]

/-- Same-length prefixes of the same list are equal. -/
theorem prefix_eq_of_length (a a' p : FsPath) (h : a <+: p) (h' : a' <+: p)
    (hl : a.length = a'.length) : a = a' :=
  (List.prefix_of_prefix_length_le h h' (le_of_eq hl)).eq_of_length hl

/-! ## Well-formedness of branch maps -/

/-- Every bucket member's path is the bucket key extended by the member's
file name (true of the aggregated map: members are filed under their parent
path, and a node's file name is its path's last component). -/
def Coherent (b : Branches) : Prop :=
  ∀ k cs, lookupB b k = some cs → ∀ c ∈ cs, c.path = k ++ [c.file_name]

/-- Every bucket's member file names are distinct (true of the aggregated
map when the stream's paths are distinct). -/
def NamesDistinct (b : Branches) : Prop :=
  ∀ k cs, lookupB b k = some cs → (cs.map Node.file_name).Nodup

/-- `b'` agrees with `b` wherever it is defined. -/
def SubMap (b' b : Branches) : Prop :=
  ∀ p, lookupB b' p = lookupB b p ∨ lookupB b' p = none

theorem SubMap.refl (b : Branches) : SubMap b b := fun _ => Or.inl rfl

theorem SubMap.trans {b1 b2 b3 : Branches} (h1 : SubMap b1 b2) (h2 : SubMap b2 b3) :
    SubMap b1 b3 := by
  intro p
  rcases h1 p with h | h
  · rcases h2 p with h' | h'
    · exact Or.inl (h.trans h')
    · exact Or.inr (h.trans h')
  · exact Or.inr h

theorem subMap_eraseB (b : Branches) (k : FsPath) : SubMap (eraseB b k) b := by
  intro p
  rw [lookupB_eraseB]
  by_cases h : p = k
  · exact Or.inr (if_pos h)
  · exact Or.inl (if_neg h)

theorem SubMap.restrictB (b : Branches) (k : FsPath) : SubMap (restrictB b k) b := by
  intro p
  rw [lookupB_restrictB]
  by_cases h : k <+: p
  · exact Or.inl (if_pos h)
  · exact Or.inr (if_neg h)

theorem coherent_of_subMap {b' b : Branches} (hs : SubMap b' b) (h : Coherent b) :
    Coherent b' := by
  intro k cs hcs c hc
  rcases hs k with he | he
  · exact h k cs (he ▸ hcs) c hc
  · rw [hcs] at he; exact absurd he (by simp)

theorem namesDistinct_of_subMap {b' b : Branches} (hs : SubMap b' b)
    (h : NamesDistinct b) : NamesDistinct b' := by
  intro k cs hcs
  rcases hs k with he | he
  · exact h k cs (he ▸ hcs)
  · rw [hcs] at he; exact absurd he (by simp)

/-- A coherent bucket member's path strictly extends the bucket key. -/
theorem Coherent.member_prefix {b : Branches} (h : Coherent b) {k : FsPath}
    {cs : List Node} (hcs : lookupB b k = some cs) {c : Node} (hc : c ∈ cs) :
    k <+: c.path ∧ c.path ≠ k ∧ c.path.length = k.length + 1 := by
  have hp := h k cs hcs c hc
  refine ⟨hp ▸ List.prefix_append k [c.file_name], ?_, by rw [hp]; simp⟩
  rw [hp]; intro hh
  have : k.length + 1 = k.length := by
    conv_rhs => rw [← congrArg List.length hh]
    simp
  omega

/-! ## Unfolding lemmas for the assembly recursion -/

theorem assembleGo_zero (n : Node) (b : Branches) (ord : Order) :
    assembleGo 0 n b ord = (n, b) := rfl

theorem assembleGo_succ_none {n : Node} {b : Branches} (f : Nat) (ord : Order)
    (h : lookupB b n.path = none) : assembleGo (f + 1) n b ord = (n, b) := by
  simp [assembleGo, h]

/-- The node an assembly step builds out of the current node and its fully
processed children. -/
def finishNode (n : Node) (cs1 : List Node) (ord : Order) : Node :=
  let dirSize := sumSizes cs1
  let n1 := Node.set_children n cs1
  let n2 := if 0 < dirSize then Node.set_file_size n1 dirSize else n1
  match Order.comparator ord with
  | some le => Node.set_children n2 (sortNodes le cs1)
  | Option.none => n2

theorem assembleGo_succ_some {n : Node} {b : Branches} {cs : List Node}
    (f : Nat) (ord : Order) (h : lookupB b n.path = some cs) :
    assembleGo (f + 1) n b ord =
      (finishNode n (assembleList f cs (eraseB b n.path) ord).1 ord,
       (assembleList f cs (eraseB b n.path) ord).2) := by
  simp [assembleGo, h, assembleList, finishNode]

theorem assembleList_nil (f : Nat) (b : Branches) (ord : Order) :
    assembleList f [] b ord = ([], b) := rfl

theorem assembleList_cons (f : Nat) (c : Node) (rest : List Node) (b : Branches)
    (ord : Order) :
    assembleList f (c :: rest) b ord =
      (let head := if c.is_dir then assembleGo f c b ord else (c, b)
       let tail := assembleList f rest head.2 ord
       (head.1 :: tail.1, tail.2)) := rfl

/-- Fields other than `children` and `file_size` survive `finishNode`. -/
theorem finishNode_fields (n : Node) (cs1 : List Node) (ord : Order) :
    (finishNode n cs1 ord).path = n.path ∧
      (finishNode n cs1 ord).file_name = n.file_name ∧
      (finishNode n cs1 ord).depth = n.depth ∧
      (finishNode n cs1 ord).is_dir = n.is_dir := by
  unfold finishNode
  cases Order.comparator ord <;> by_cases h : 0 < sumSizes cs1 <;> simp [h]

/-- The assembled node keeps the original's path, name, depth and
directory flag (only `children` and `file_size` are written). -/
theorem assembleGo_fields (f : Nat) (n : Node) (b : Branches) (ord : Order) :
    (assembleGo f n b ord).1.path = n.path ∧
      (assembleGo f n b ord).1.file_name = n.file_name ∧
      (assembleGo f n b ord).1.depth = n.depth ∧
      (assembleGo f n b ord).1.is_dir = n.is_dir := by
  cases f with
  | zero => simp [assembleGo_zero]
  | succ f =>
    cases h : lookupB b n.path with
    | none => simp [assembleGo_succ_none f ord h]
    | some cs => rw [assembleGo_succ_some f ord h]; exact finishNode_fields ..

/-- Assembly never grows the branch map. -/
theorem assemble_msize (f : Nat) :
    (∀ n b ord, msize (assembleGo f n b ord).2 ≤ msize b) ∧
      (∀ cs b ord, msize (assembleList f cs b ord).2 ≤ msize b) := by
  induction f with
  | zero =>
    have hGo : ∀ n b ord, msize (assembleGo 0 n b ord).2 ≤ msize b := by
      intro n b ord; rw [assembleGo_zero]
    refine ⟨hGo, ?_⟩
    intro cs
    induction cs with
    | nil => intro b ord; rw [assembleList_nil]
    | cons c rest ih =>
      intro b ord
      rw [assembleList_cons]
      by_cases h : c.is_dir = true
      · simp only [h, if_true]
        exact le_trans (ih _ ord) (hGo c b ord)
      · simp only [h, if_false]
        exact ih b ord
  | succ f ih =>
    have hGo : ∀ n b ord, msize (assembleGo (f + 1) n b ord).2 ≤ msize b := by
      intro n b ord
      cases h : lookupB b n.path with
      | none => rw [assembleGo_succ_none f ord h]
      | some cs =>
        rw [assembleGo_succ_some f ord h]
        exact le_trans (ih.2 cs (eraseB b n.path) ord) (msize_eraseB_le b n.path)
    refine ⟨hGo, ?_⟩
    intro cs
    induction cs with
    | nil => intro b ord; rw [assembleList_nil]
    | cons c rest ihl =>
      intro b ord
      rw [assembleList_cons]
      by_cases h : c.is_dir = true
      · simp only [h, if_true]
        exact le_trans (ihl _ ord) (hGo c b ord)
      · simp only [h, if_false]
        exact ihl b ord

/-- Assembly only removes buckets: every surviving key holds its original
bucket. -/
theorem assemble_subMap (f : Nat) :
    (∀ n b ord, SubMap (assembleGo f n b ord).2 b) ∧
      (∀ cs b ord, SubMap (assembleList f cs b ord).2 b) := by
  induction f with
  | zero =>
    have hGo : ∀ n b ord, SubMap (assembleGo 0 n b ord).2 b := by
      intro n b ord; rw [assembleGo_zero]; exact SubMap.refl b
    refine ⟨hGo, ?_⟩
    intro cs
    induction cs with
    | nil => intro b ord; rw [assembleList_nil]; exact SubMap.refl b
    | cons c rest ih =>
      intro b ord
      rw [assembleList_cons]
      by_cases h : c.is_dir = true
      · simp only [h, if_true]
        exact SubMap.trans (ih _ ord) (hGo c b ord)
      · simp only [h, if_false]
        exact ih b ord
  | succ f ih =>
    have hGo : ∀ n b ord, SubMap (assembleGo (f + 1) n b ord).2 b := by
      intro n b ord
      cases h : lookupB b n.path with
      | none => rw [assembleGo_succ_none f ord h]; exact SubMap.refl b
      | some cs =>
        rw [assembleGo_succ_some f ord h]
        exact SubMap.trans (ih.2 cs (eraseB b n.path) ord) (subMap_eraseB b n.path)
    refine ⟨hGo, ?_⟩
    intro cs
    induction cs with
    | nil => intro b ord; rw [assembleList_nil]; exact SubMap.refl b
    | cons c rest ihl =>
      intro b ord
      rw [assembleList_cons]
      by_cases h : c.is_dir = true
      · simp only [h, if_true]
        exact SubMap.trans (ihl _ ord) (hGo c b ord)
      · simp only [h, if_false]
        exact ihl b ord

theorem Coherent.assembleGo (f : Nat) {b : Branches} (h : Coherent b)
    (n : Node) (ord : Order) : Coherent (assembleGo f n b ord).2 :=
  coherent_of_subMap ((assemble_subMap f).1 n b ord) h

theorem Coherent.assembleList (f : Nat) {b : Branches} (h : Coherent b)
    (cs : List Node) (ord : Order) : Coherent (assembleList f cs b ord).2 :=
  coherent_of_subMap ((assemble_subMap f).2 cs b ord) h

theorem prefix_comparable {a c p : FsPath} (h1 : a <+: p) (h2 : c <+: p) :
    a <+: c ∨ c <+: a := by
  rcases le_total a.length c.length with h | h
  · exact Or.inl (List.prefix_of_prefix_length_le h1 h2 h)
  · exact Or.inr (List.prefix_of_prefix_length_le h2 h1 h)

/-- Frame property: assembly rooted at `n` never touches a bucket whose key
does not extend `n.path` (and the list pass never touches keys outside its
directory members' subtrees). -/
theorem assemble_frame (f : Nat) :
    (∀ n b ord p, Coherent b → ¬ n.path <+: p →
      lookupB (assembleGo f n b ord).2 p = lookupB b p) ∧
      (∀ cs b ord p, Coherent b → (∀ c ∈ cs, c.is_dir = true → ¬ c.path <+: p) →
        lookupB (assembleList f cs b ord).2 p = lookupB b p) := by
  induction f with
  | zero =>
    have hGo : ∀ n b ord p, Coherent b → ¬ n.path <+: p →
        lookupB (assembleGo 0 n b ord).2 p = lookupB b p := by
      intro n b ord p _ _; rw [assembleGo_zero]
    refine ⟨hGo, ?_⟩
    intro cs
    induction cs with
    | nil => intro b ord p _ _; rw [assembleList_nil]
    | cons c rest ih =>
      intro b ord p hcoh hcs
      rw [assembleList_cons]
      by_cases h : c.is_dir = true
      · simp only [h, if_true]
        rw [ih _ ord p (hcoh.assembleGo 0 c ord)
          (fun c' hc' hd => hcs c' (List.mem_cons_of_mem c hc') hd)]
        exact hGo c b ord p hcoh (hcs c (List.mem_cons_self c rest) h)
      · simp only [h, if_false]
        exact ih b ord p hcoh fun c' hc' hd => hcs c' (List.mem_cons_of_mem c hc') hd
  | succ f ih =>
    have hGo : ∀ n b ord p, Coherent b → ¬ n.path <+: p →
        lookupB (assembleGo (f + 1) n b ord).2 p = lookupB b p := by
      intro n b ord p hcoh hnp
      cases h : lookupB b n.path with
      | none => rw [assembleGo_succ_none f ord h]
      | some cs =>
        rw [assembleGo_succ_some f ord h]
        have herase : lookupB (eraseB b n.path) p = lookupB b p := by
          rw [lookupB_eraseB, if_neg]
          intro hp
          exact hnp (hp ▸ List.prefix_refl p)
        rw [ih.2 cs (eraseB b n.path) ord p
          (coherent_of_subMap (subMap_eraseB b n.path) hcoh) ?_, herase]
        intro c hc _hd hcp
        exact hnp (List.IsPrefix.trans (hcoh.member_prefix h hc).1 hcp)
    refine ⟨hGo, ?_⟩
    intro cs
    induction cs with
    | nil => intro b ord p _ _; rw [assembleList_nil]
    | cons c rest ihl =>
      intro b ord p hcoh hcs
      rw [assembleList_cons]
      by_cases h : c.is_dir = true
      · simp only [h, if_true]
        rw [ihl _ ord p (hcoh.assembleGo (f + 1) c ord)
          (fun c' hc' hd => hcs c' (List.mem_cons_of_mem c hc') hd)]
        exact hGo c b ord p hcoh (hcs c (List.mem_cons_self c rest) h)
      · simp only [h, if_false]
        exact ihl b ord p hcoh fun c' hc' hd => hcs c' (List.mem_cons_of_mem c hc') hd

/-- Assembly of a node depends only on the part of the map at keys extending
the node's path: maps agreeing there produce the same node (at any
sufficient fuel), and their result maps agree wherever the inputs did. -/
theorem assemble_agree (f1 : Nat) :
    (∀ f2 n b1 b2 ord, msize b1 < f1 → msize b2 < f2 → Coherent b1 → Coherent b2 →
      (∀ p, n.path <+: p → lookupB b1 p = lookupB b2 p) →
      (assembleGo f1 n b1 ord).1 = (assembleGo f2 n b2 ord).1 ∧
        (∀ p, lookupB b1 p = lookupB b2 p →
          lookupB (assembleGo f1 n b1 ord).2 p = lookupB (assembleGo f2 n b2 ord).2 p)) ∧
      (∀ f2 cs b1 b2 ord, msize b1 < f1 → msize b2 < f2 → Coherent b1 → Coherent b2 →
        (∀ c ∈ cs, c.is_dir = true → ∀ p, c.path <+: p → lookupB b1 p = lookupB b2 p) →
        (assembleList f1 cs b1 ord).1 = (assembleList f2 cs b2 ord).1 ∧
          (∀ p, lookupB b1 p = lookupB b2 p →
            lookupB (assembleList f1 cs b1 ord).2 p = lookupB (assembleList f2 cs b2 ord).2 p)) := by
  induction f1 with
  | zero =>
    exact ⟨fun f2 n b1 b2 ord hm1 => absurd hm1 (by omega),
      fun f2 cs b1 b2 ord hm1 => absurd hm1 (by omega)⟩
  | succ f ih =>
    have hGo : ∀ f2 n b1 b2 ord, msize b1 < f + 1 → msize b2 < f2 → Coherent b1 →
        Coherent b2 → (∀ p, n.path <+: p → lookupB b1 p = lookupB b2 p) →
        (assembleGo (f + 1) n b1 ord).1 = (assembleGo f2 n b2 ord).1 ∧
          (∀ p, lookupB b1 p = lookupB b2 p →
            lookupB (assembleGo (f + 1) n b1 ord).2 p = lookupB (assembleGo f2 n b2 ord).2 p) := by
      intro f2 n b1 b2 ord hm1 hm2 hc1 hc2 hag
      have hroot := hag n.path (List.prefix_refl n.path)
      cases f2 with
      | zero => omega
      | succ g2 =>
        cases h1 : lookupB b1 n.path with
        | none =>
          have h2 : lookupB b2 n.path = none := hroot ▸ h1
          rw [assembleGo_succ_none f ord h1, assembleGo_succ_none g2 ord h2]
          exact ⟨rfl, fun p hp => hp⟩
        | some cs =>
          have h2 : lookupB b2 n.path = some cs := hroot ▸ h1
          rw [assembleGo_succ_some f ord h1, assembleGo_succ_some g2 ord h2]
          have hm1e : msize (eraseB b1 n.path) < f := by
            have := msize_eraseB_lt b1 n.path cs h1; omega
          have hm2e : msize (eraseB b2 n.path) < g2 := by
            have := msize_eraseB_lt b2 n.path cs h2; omega
          have hagE : ∀ c ∈ cs, c.is_dir = true → ∀ p, c.path <+: p →
              lookupB (eraseB b1 n.path) p = lookupB (eraseB b2 n.path) p := by
            intro c hc _hd p hp
            obtain ⟨hpre, _, hlen⟩ := hc1.member_prefix h1 hc
            have hnp : n.path <+: p := hpre.trans hp
            have hpne : ¬ p = n.path := by
              intro hh
              have := hp.length_le
              rw [hh] at this
              omega
            rw [lookupB_eraseB, if_neg hpne, lookupB_eraseB, if_neg hpne]
            exact hag p hnp
          obtain ⟨hl1, hl2⟩ := ih.2 g2 cs (eraseB b1 n.path) (eraseB b2 n.path) ord hm1e hm2e
            (coherent_of_subMap (subMap_eraseB b1 n.path) hc1)
            (coherent_of_subMap (subMap_eraseB b2 n.path) hc2) hagE
          constructor
          · rw [hl1]
          · intro p hp
            apply hl2
            rw [lookupB_eraseB, lookupB_eraseB]
            by_cases hpn : p = n.path
            · rw [if_pos hpn, if_pos hpn]
            · rw [if_neg hpn, if_neg hpn]; exact hp
    refine ⟨hGo, ?_⟩
    intro f2 cs
    induction cs with
    | nil =>
      intro b1 b2 ord hm1 hm2 hc1 hc2 hag
      rw [assembleList_nil, assembleList_nil]
      exact ⟨rfl, fun p hp => hp⟩
    | cons c rest ihl =>
      intro b1 b2 ord hm1 hm2 hc1 hc2 hag
      rw [assembleList_cons, assembleList_cons]
      dsimp only
      by_cases hd : c.is_dir = true
      · simp only [if_pos hd]
        obtain ⟨hh1, hh2⟩ := hGo f2 c b1 b2 ord hm1 hm2 hc1 hc2
          (hag c (List.mem_cons_self c rest) hd)
        have hm1' : msize (assembleGo (f + 1) c b1 ord).2 < f + 1 :=
          lt_of_le_of_lt ((assemble_msize (f + 1)).1 c b1 ord) hm1
        have hm2' : msize (assembleGo f2 c b2 ord).2 < f2 :=
          lt_of_le_of_lt ((assemble_msize f2).1 c b2 ord) hm2
        obtain ⟨ht1, ht2⟩ := ihl (assembleGo (f + 1) c b1 ord).2 (assembleGo f2 c b2 ord).2
          ord hm1' hm2' (hc1.assembleGo (f + 1) c ord) (hc2.assembleGo f2 c ord)
          (fun c' hc' hd' p hp =>
            hh2 p (hag c' (List.mem_cons_of_mem c hc') hd' p hp))
        exact ⟨by rw [hh1, ht1], fun p hp => ht2 p (hh2 p hp)⟩
      · simp only [if_neg hd]
        obtain ⟨ht1, ht2⟩ := ihl b1 b2 ord hm1 hm2 hc1 hc2
          (fun c' hc' hd' p hp => hag c' (List.mem_cons_of_mem c hc') hd' p hp)
        exact ⟨by rw [ht1], ht2⟩

/-! ## Sorting lemmas -/

/-- The by-name comparator of the default order. -/
def nameLe : Node → Node → Bool := fun a b => a.file_name ≤ b.file_name

theorem comparator_name : Order.comparator Order.name = some nameLe := rfl

theorem sumSizes_cons (c : Node) (l : List Node) :
    sumSizes (c :: l) = c.file_size.getD 0 + sumSizes l := by
  unfold sumSizes
  have haux : ∀ (l : List Node) (a : Nat),
      l.foldl (fun acc c => acc + c.file_size.getD 0) a =
        a + l.foldl (fun acc c => acc + c.file_size.getD 0) 0 := by
    intro l
    induction l with
    | nil => intro a; simp
    | cons x xs ih =>
      intro a
      simp only [List.foldl_cons]
      rw [ih (a + x.file_size.getD 0), ih (0 + x.file_size.getD 0)]
      omega
  simp only [List.foldl_cons]
  rw [haux l (0 + c.file_size.getD 0)]
  omega

theorem sumSizes_perm {l1 l2 : List Node} (h : l1.Perm l2) :
    sumSizes l1 = sumSizes l2 := by
  induction h with
  | nil => rfl
  | cons x _ ih => rw [sumSizes_cons, sumSizes_cons, ih]
  | swap x y l => rw [sumSizes_cons, sumSizes_cons, sumSizes_cons, sumSizes_cons]; omega
  | trans _ _ ih1 ih2 => rw [ih1, ih2]

theorem sortNodes_perm (le : Node → Node → Bool) (l : List Node) :
    (sortNodes le l).Perm l := List.perm_insertionSort _ l

theorem sortNodes_sorted_name (l : List Node) :
    List.Sorted (fun a b : Node => nameLe a b = true) (sortNodes nameLe l) := by
  haveI h1 : IsTotal Node (fun a b => nameLe a b = true) := by
    constructor
    intro a b
    unfold nameLe
    rcases le_total a.file_name b.file_name with h | h
    · exact Or.inl (by simpa using h)
    · exact Or.inr (by simpa using h)
  haveI h2 : IsTrans Node (fun a b => nameLe a b = true) := by
    constructor
    intro a b c hab hbc
    unfold nameLe at hab hbc ⊢
    simp only [decide_eq_true_eq] at hab hbc ⊢
    exact le_trans hab hbc
  exact List.sorted_insertionSort _ l

/-- Sorted-by-name lists with pairwise-distinct names are strictly sorted. -/
theorem sorted_strict_of_names {l : List Node}
    (hs : List.Sorted (fun a b : Node => nameLe a b = true) l)
    (hn : (l.map Node.file_name).Nodup) :
    List.Sorted (fun a b : Node => a.file_name < b.file_name) l := by
  have hne : l.Pairwise fun a b => a.file_name ≠ b.file_name := List.pairwise_map.mp hn
  exact (hs.and hne).imp fun hab =>
    lt_of_le_of_ne (by simpa [nameLe] using hab.1) hab.2

/-- Stable sorting by name maps permuted inputs with distinct names to the
same list. -/
theorem sortNodes_congr_perm {l1 l2 : List Node} (hp : l1.Perm l2)
    (hn : (l1.map Node.file_name).Nodup) :
    sortNodes nameLe l1 = sortNodes nameLe l2 := by
  haveI : IsAntisymm Node (fun a b : Node => a.file_name < b.file_name) :=
    ⟨fun a b h h' => absurd (lt_trans h h') (lt_irrefl _)⟩
  have hp2 : (sortNodes nameLe l1).Perm (sortNodes nameLe l2) :=
    (sortNodes_perm nameLe l1).trans (hp.trans (sortNodes_perm nameLe l2).symm)
  have hn1 : ((sortNodes nameLe l1).map Node.file_name).Nodup :=
    (((sortNodes_perm nameLe l1).map Node.file_name).nodup_iff).mpr hn
  have hn2 : ((sortNodes nameLe l2).map Node.file_name).Nodup :=
    ((hp2.map Node.file_name).nodup_iff).mp hn1
  exact List.eq_of_perm_of_sorted hp2
    (sorted_strict_of_names (sortNodes_sorted_name l1) hn1)
    (sorted_strict_of_names (sortNodes_sorted_name l2) hn2)

theorem set_children_set_children (n : Node) (l1 l2 : List Node) :
    (n.set_children l1).set_children l2 = n.set_children l2 := by cases n; rfl

theorem set_children_size_children (n : Node) (l1 l2 : List Node) (s : FileSize)
    (l : List Node) :
    ((n.set_children l1).set_file_size s).set_children l =
      ((n.set_children l2).set_file_size s).set_children l := by cases n; rfl

theorem set_children_after_size (n : Node) (l : List Node) (s : FileSize) :
    ((n.set_children l).set_file_size s).set_children l =
      (n.set_children l).set_file_size s := by cases n; rfl

/-- `finishNode` under the default by-name order is invariant under
permuting the processed children, given distinct names. -/
theorem finishNode_perm_name (n : Node) {l1 l2 : List Node} (hp : l1.Perm l2)
    (hn : (l1.map Node.file_name).Nodup) :
    finishNode n l1 Order.name = finishNode n l2 Order.name := by
  unfold finishNode
  rw [comparator_name]
  have hs : sumSizes l1 = sumSizes l2 := sumSizes_perm hp
  have hsort : sortNodes nameLe l1 = sortNodes nameLe l2 := sortNodes_congr_perm hp hn
  dsimp only
  rw [hs, hsort]
  by_cases h : 0 < sumSizes l2
  · rw [if_pos h, if_pos h]
    exact set_children_size_children n l1 l2 _ _
  · rw [if_neg h, if_neg h]
    rw [set_children_set_children, set_children_set_children]

/-- Distinct-named members of a coherent bucket occupy pairwise disjoint
subtrees. -/
theorem bucket_pairwise_disjoint {b : Branches} (hcoh : Coherent b) {k : FsPath}
    {cs : List Node} (h : lookupB b k = some cs)
    (hnd : (cs.map Node.file_name).Nodup) :
    cs.Pairwise fun c1 c2 => ¬ c1.path <+: c2.path ∧ ¬ c2.path <+: c1.path := by
  have hne : cs.Pairwise fun a b => a.file_name ≠ b.file_name := List.pairwise_map.mp hnd
  refine hne.imp_of_mem ?_
  intro c1 c2 hm1 hm2 hneq
  have hp1 := hcoh k cs h c1 hm1
  have hp2 := hcoh k cs h c2 hm2
  have hlen : c1.path.length = c2.path.length := by rw [hp1, hp2]; simp
  constructor
  · intro hpre
    have heq := hpre.eq_of_length hlen
    rw [hp1, hp2] at heq
    have := List.append_cancel_left heq
    simp only [List.cons.injEq] at this
    exact hneq this.1
  · intro hpre
    have heq := hpre.eq_of_length hlen.symm
    rw [hp1, hp2] at heq
    have := List.append_cancel_left heq
    simp only [List.cons.injEq] at this
    exact hneq this.1.symm

/-- Normal form of the child loop: over pairwise-disjoint children, the
left-to-right threading of the map is equivalent to assembling every child
against the same starting map. -/
theorem assembleList_map (f : Nat) (ord : Order) :
    ∀ cs b, msize b < f → Coherent b →
      cs.Pairwise (fun c1 c2 => ¬ c1.path <+: c2.path ∧ ¬ c2.path <+: c1.path) →
      (assembleList f cs b ord).1 =
        cs.map fun c => if c.is_dir then (assembleGo f c b ord).1 else c := by
  intro cs
  induction cs with
  | nil => intro b _ _ _; rfl
  | cons c rest ih =>
    intro b hm hcoh hpw
    rw [assembleList_cons]
    dsimp only
    have hpwRest : rest.Pairwise
        (fun c1 c2 => ¬ c1.path <+: c2.path ∧ ¬ c2.path <+: c1.path) :=
      List.Pairwise.sublist (List.sublist_cons_self c rest) hpw
    have hdisj : ∀ c' ∈ rest, ¬ c.path <+: c'.path ∧ ¬ c'.path <+: c.path :=
      (List.pairwise_cons.mp hpw).1
    rw [List.map_cons]
    by_cases hd : c.is_dir = true
    · simp only [if_pos hd]
      have hm' : msize (assembleGo f c b ord).2 < f :=
        lt_of_le_of_lt ((assemble_msize f).1 c b ord) hm
      rw [ih (assembleGo f c b ord).2 hm' (hcoh.assembleGo f c ord) hpwRest]
      congr 1
      apply List.map_congr_left
      intro c' hc'
      by_cases hd' : c'.is_dir = true
      · simp only [if_pos hd']
        cases f with
        | zero => omega
        | succ g =>
          have hagree : ∀ p, c'.path <+: p →
              lookupB (assembleGo (g + 1) c b ord).2 p = lookupB b p := by
            intro p hp
            apply ((assemble_frame (g + 1)).1 c b ord p hcoh)
            intro hcp
            rcases prefix_comparable hcp hp with hcc | hcc
            · exact (hdisj c' hc').1 hcc
            · exact (hdisj c' hc').2 hcc
          exact ((assemble_agree (g + 1)).1 (g + 1) c' (assembleGo (g + 1) c b ord).2 b
            ord hm' hm (hcoh.assembleGo (g + 1) c ord) hcoh hagree).1
      · simp only [if_neg hd']
    · simp only [if_neg hd]
      exact congrArg _ (ih b hm hcoh hpwRest)

/-- Pointwise permutation relation on optional buckets. -/
def OptPerm : Option (List Node) → Option (List Node) → Prop
  | Option.none, Option.none => True
  | some l1, some l2 => l1.Perm l2
  | _, _ => False

/-- The central order-independence property of tree assembly: over coherent
maps with distinct-named buckets, assembling under the default by-name sort
from bucket-wise permuted maps yields the same node. -/
theorem assemble_perm (f1 : Nat) : ∀ f2 n b1 b2,
    msize b1 < f1 → msize b2 < f2 → Coherent b1 → Coherent b2 →
    NamesDistinct b1 → NamesDistinct b2 →
    (∀ p, n.path <+: p → OptPerm (lookupB b1 p) (lookupB b2 p)) →
    (assembleGo f1 n b1 Order.name).1 = (assembleGo f2 n b2 Order.name).1 := by
  induction f1 with
  | zero => intro f2 n b1 b2 hm1; exact absurd hm1 (by omega)
  | succ f ih =>
    intro f2 n b1 b2 hm1 hm2 hc1 hc2 hN1 hN2 hag
    cases f2 with
    | zero => omega
    | succ g2 =>
      have hro := hag n.path (List.prefix_refl n.path)
      cases h1 : lookupB b1 n.path with
      | none =>
        cases h2 : lookupB b2 n.path with
        | none =>
          rw [assembleGo_succ_none f Order.name h1,
            assembleGo_succ_none g2 Order.name h2]
        | some cs2 => rw [h1, h2] at hro; exact absurd hro (by simp [OptPerm])
      | some cs1 =>
        cases h2 : lookupB b2 n.path with
        | none => rw [h1, h2] at hro; exact absurd hro (by simp [OptPerm])
        | some cs2 =>
          rw [h1, h2] at hro
          have hperm : cs1.Perm cs2 := hro
          rw [assembleGo_succ_some f Order.name h1,
            assembleGo_succ_some g2 Order.name h2]
          have hm1e : msize (eraseB b1 n.path) < f := by
            have := msize_eraseB_lt b1 n.path cs1 h1; omega
          have hm2e : msize (eraseB b2 n.path) < g2 := by
            have := msize_eraseB_lt b2 n.path cs2 h2; omega
          have hc1e := coherent_of_subMap (subMap_eraseB b1 n.path) hc1
          have hc2e := coherent_of_subMap (subMap_eraseB b2 n.path) hc2
          have hnd1 : (cs1.map Node.file_name).Nodup := hN1 n.path cs1 h1
          have hnd2 : (cs2.map Node.file_name).Nodup := hN2 n.path cs2 h2
          have hres1 := assembleList_map f Order.name cs1 (eraseB b1 n.path) hm1e hc1e
            (bucket_pairwise_disjoint hc1 h1 hnd1)
          have hres2 := assembleList_map g2 Order.name cs2 (eraseB b2 n.path) hm2e hc2e
            (bucket_pairwise_disjoint hc2 h2 hnd2)
          have hpoint : ∀ c ∈ cs1,
              (if c.is_dir then (assembleGo f c (eraseB b1 n.path) Order.name).1 else c) =
                (if c.is_dir then (assembleGo g2 c (eraseB b2 n.path) Order.name).1 else c) := by
            intro c hc
            by_cases hd : c.is_dir = true
            · simp only [if_pos hd]
              apply ih g2 c (eraseB b1 n.path) (eraseB b2 n.path) hm1e hm2e hc1e hc2e
                (namesDistinct_of_subMap (subMap_eraseB b1 n.path) hN1)
                (namesDistinct_of_subMap (subMap_eraseB b2 n.path) hN2)
              intro p hp
              obtain ⟨hpre, _, hlen⟩ := hc1.member_prefix h1 hc
              have hpn : ¬ p = n.path := by
                intro hh
                have := hp.length_le
                rw [hh] at this
                omega
              rw [lookupB_eraseB, if_neg hpn, lookupB_eraseB, if_neg hpn]
              exact hag p (hpre.trans hp)
            · simp only [if_neg hd]
          have hpermRes : ((assembleList f cs1 (eraseB b1 n.path) Order.name).1).Perm
              ((assembleList g2 cs2 (eraseB b2 n.path) Order.name).1) := by
            rw [hres1, hres2]
            have : cs2.map (fun c =>
                if c.is_dir then (assembleGo f c (eraseB b1 n.path) Order.name).1 else c) =
                cs2.map (fun c =>
                  if c.is_dir then (assembleGo g2 c (eraseB b2 n.path) Order.name).1 else c) :=
              List.map_congr_left fun c hc => hpoint c (hperm.mem_iff.mpr hc)
            rw [← this]
            exact hperm.map _
          have hndRes : (((assembleList f cs1 (eraseB b1 n.path) Order.name).1).map
              Node.file_name).Nodup := by
            rw [hres1, List.map_map]
            have : (Node.file_name ∘ fun c =>
                if c.is_dir then (assembleGo f c (eraseB b1 n.path) Order.name).1 else c) =
                Node.file_name := by
              funext c
              by_cases hd : c.is_dir = true
              · simp only [Function.comp_apply, if_pos hd]
                exact (assembleGo_fields f c (eraseB b1 n.path) Order.name).2.1
              · simp only [Function.comp_apply, if_neg hd]
            rw [this]
            exact hnd1
          exact finishNode_perm_name n hpermRes hndRes

/-! ## Characterization of the aggregation loop -/

/-- A depth-0 directory: the only shape of descriptor stored as root. -/
def rootlikeB (n : Node) : Bool := n.is_dir && n.depth == 0

theorem rootlikeB_iff (n : Node) :
    rootlikeB n = true ↔ (n.is_dir = true ∧ n.depth = 0) := by
  unfold rootlikeB
  simp

/-- Path membership as a Boolean. -/
def memPath (p : FsPath) (l : List FsPath) : Bool := l.any fun q => q = p

theorem memPath_iff (p : FsPath) (l : List FsPath) :
    memPath p l = true ↔ p ∈ l := by
  unfold memPath
  simp only [List.any_eq_true, decide_eq_true_eq]
  constructor
  · rintro ⟨q, hq, rfl⟩; exact hq
  · intro h; exact ⟨p, h, rfl⟩

/-- The root the loop ends with: the last depth-0 directory received, if
any (each one overwrites the previous). -/
def lastRoot : Option Node → List Node → Option Node
  | r, [] => r
  | r, n :: rest => lastRoot (if rootlikeB n then some n else r) rest

theorem lastRoot_cons (r : Option Node) (n : Node) (rest : List Node) :
    lastRoot r (n :: rest) = lastRoot (if rootlikeB n then some n else r) rest := rfl

/-- The non-root descriptors of the stream whose computed parent path is
`k`, in arrival order: the nodes the loop appends to bucket `k`. -/
def appendedTo (s : List Node) (k : FsPath) : List Node :=
  s.filter fun n => !rootlikeB n && decide (parentPath n.path = some k)

/-- Whether some directory descriptor in the stream has path `k` (such a
directory pre-creates bucket `k` on arrival). -/
def dirAt (s : List Node) (k : FsPath) : Bool :=
  s.any fun d => d.is_dir && decide (d.path = k)

/-- The bucket the loop ends with at key `k`, starting from map `b0`, when
every non-root descriptor's parent bucket exists on its arrival. -/
def finalLookup (b0 : Branches) (s : List Node) (k : FsPath) : Option (List Node) :=
  if containsB b0 k then some ((lookupB b0 k).getD [] ++ appendedTo s k)
  else if dirAt s k then some (appendedTo s k)
  else none

/-- Parent-before-child arrival: every descriptor is either a depth-0
directory or is preceded by a directory at its computed parent path
(`seen` carries the directory paths of the already-consumed prefix). -/
def parentsFirstB : List FsPath → List Node → Bool
  | _, [] => true
  | seen, n :: rest =>
    (rootlikeB n ||
      (match parentPath n.path with
       | some p => memPath p seen
       | none => false)) &&
    parentsFirstB (if n.is_dir then n.path :: seen else seen) rest

theorem appendedTo_cons (n : Node) (rest : List Node) (k : FsPath) :
    appendedTo (n :: rest) k =
      if rootlikeB n = false ∧ parentPath n.path = some k then
        n :: appendedTo rest k
      else appendedTo rest k := by
  unfold appendedTo
  rw [List.filter_cons]
  by_cases h1 : rootlikeB n = false
  · by_cases h2 : parentPath n.path = some k
    · rw [if_pos (by simp [h1, h2]), if_pos ⟨h1, h2⟩]
    · rw [if_neg (by simp [h2]), if_neg (by intro hh; exact h2 hh.2)]
  · have h1' : rootlikeB n = true := by revert h1; cases rootlikeB n <;> simp
    rw [if_neg (by simp [h1']), if_neg (by intro hh; rw [h1'] at hh; exact absurd hh.1 (by simp))]

theorem dirAt_cons (n : Node) (rest : List Node) (k : FsPath) :
    dirAt (n :: rest) k = ((n.is_dir && decide (n.path = k)) || dirAt rest k) := by
  unfold dirAt
  rw [List.any_cons]

/-- Containment only grows under pre-creation, pushes and inserts. -/
theorem containsB_insertB (b : Branches) (k k' : FsPath) (v : List Node)
    (h : containsB b k' = true) : containsB (insertB b k v) k' = true := by
  rw [containsB_iff] at h ⊢
  obtain ⟨cs, hcs⟩ := h
  rw [lookupB_insertB]
  by_cases hk : k' = k
  · exact ⟨v, if_pos hk⟩
  · exact ⟨cs, (if_neg hk).trans hcs⟩

theorem containsB_insertB_self (b : Branches) (k : FsPath) (v : List Node) :
    containsB (insertB b k v) k = true := by
  rw [containsB_iff, lookupB_insertB]
  exact ⟨v, if_pos rfl⟩

theorem containsB_pushB (b : Branches) (k k' : FsPath) (n : Node)
    (h : containsB b k' = true) : containsB (pushB b k n) k' = true := by
  rw [containsB_iff] at h ⊢
  obtain ⟨cs, hcs⟩ := h
  rw [lookupB_pushB]
  by_cases hk : k' = k
  · subst hk
    exact ⟨cs ++ [n], by rw [if_pos rfl, hcs]; rfl⟩
  · exact ⟨cs, (if_neg hk).trans hcs⟩

theorem containsB_preC (b : Branches) (n : Node) (k : FsPath)
    (h : containsB b k = true) : containsB (preC b n) k = true := by
  unfold preC
  by_cases hc : n.is_dir ∧ ¬ containsB b n.path
  · rw [if_pos hc]; exact containsB_insertB b n.path k [] h
  · rw [if_neg hc]; exact h

theorem containsB_preC_self (b : Branches) (n : Node) (h : n.is_dir = true) :
    containsB (preC b n) n.path = true := by
  unfold preC
  by_cases hc : containsB b n.path = true
  · rw [if_neg (by intro hh; exact hh.2 hc)]; exact hc
  · rw [if_pos ⟨h, by simp [Bool.not_eq_true] at hc ⊢; exact hc⟩]
    exact containsB_insertB_self b n.path []

theorem lookupB_preC (b : Branches) (n : Node) (k : FsPath) (hk : ¬ k = n.path) :
    lookupB (preC b n) k = lookupB b k := by
  unfold preC
  by_cases hc : n.is_dir ∧ ¬ containsB b n.path
  · rw [if_pos hc, lookupB_insertB, if_neg hk]
  · rw [if_neg hc]

/-- The three `ok` shapes of one loop iteration. -/
theorem step_rootlike (r0 : Option Node) (b0 : Branches) (n : Node)
    (h : n.is_dir = true) (h0 : n.depth = 0) :
    step r0 b0 n = Except.ok (some n, preC b0 n) := by
  simp [step, h, h0]

theorem step_nonroot_push (r0 : Option Node) (b0 : Branches) (n : Node) (p : FsPath)
    (hnr : ¬ (n.is_dir = true ∧ n.depth = 0)) (hp : parentPath n.path = some p)
    (hc : containsB (preC b0 n) p = true) :
    step r0 b0 n = Except.ok (r0, pushB (preC b0 n) p n) := by
  unfold step
  rw [if_neg hnr]
  simp only [Node.parent_path_buf, hp, hc, if_true]

theorem step_nonroot_insert (r0 : Option Node) (b0 : Branches) (n : Node) (p : FsPath)
    (hnr : ¬ (n.is_dir = true ∧ n.depth = 0)) (hp : parentPath n.path = some p)
    (hc : containsB (preC b0 n) p = false) :
    step r0 b0 n = Except.ok (r0, insertB (preC b0 n) p []) := by
  unfold step
  rw [if_neg hnr]
  simp only [Node.parent_path_buf, hp, hc]
  rfl

theorem step_nonroot_err (r0 : Option Node) (b0 : Branches) (n : Node)
    (hnr : ¬ (n.is_dir = true ∧ n.depth = 0)) (hp : parentPath n.path = none) :
    step r0 b0 n = Except.error Error.expectedParent := by
  unfold step
  rw [if_neg hnr]
  simp only [Node.parent_path_buf, hp]

theorem traverseFold_cons (n : Node) (rest : List Node) (acc : Option Node × Branches)
    (acc1 : Option Node × Branches) (h : step acc.1 acc.2 n = Except.ok acc1) :
    traverseFold (n :: rest) acc = traverseFold rest acc1 := by
  simp [traverseFold, h]

theorem traverseFold_cons_err (n : Node) (rest : List Node)
    (acc : Option Node × Branches) (e : Error)
    (h : step acc.1 acc.2 n = Except.error e) :
    traverseFold (n :: rest) acc = Except.error e := by
  simp [traverseFold, h]

theorem containsB_insertB_ne (b : Branches) (k k' : FsPath) (v : List Node)
    (h : ¬ k' = k) : containsB (insertB b k v) k' = containsB b k' := by
  unfold containsB
  rw [lookupB_insertB, if_neg h]

theorem containsB_pushB_eq (b : Branches) (k k' : FsPath) (n : Node) :
    containsB (pushB b k n) k' = containsB b k' := by
  unfold containsB
  rw [lookupB_pushB]
  by_cases h : k' = k
  · rw [if_pos h, h]
    cases lookupB b k <;> rfl
  · rw [if_neg h]

theorem containsB_preC_ne (b : Branches) (n : Node) (k : FsPath)
    (h : ¬ k = n.path) : containsB (preC b n) k = containsB b k := by
  unfold preC
  by_cases hc : n.is_dir ∧ ¬ containsB b n.path
  · rw [if_pos hc]; exact containsB_insertB_ne b n.path k [] h
  · rw [if_neg hc]

theorem preC_of_contains (b : Branches) (n : Node)
    (h : containsB b n.path = true) : preC b n = b := by
  unfold preC
  rw [if_neg]
  intro hh
  exact hh.2 h

theorem preC_of_not_dir (b : Branches) (n : Node) (h : ¬ n.is_dir = true) :
    preC b n = b := by
  unfold preC
  rw [if_neg]
  intro hh
  exact h hh.1

theorem preC_of_fresh (b : Branches) (n : Node) (hd : n.is_dir = true)
    (h : containsB b n.path = false) : preC b n = insertB b n.path [] := by
  unfold preC
  rw [if_pos ⟨hd, by rw [h]; simp⟩]

/-- One-step equation for `finalLookup`, root case: consuming a depth-0
directory leaves every final bucket as the remaining stream dictates. -/
theorem finalLookup_step_root (b0 : Branches) (n : Node) (rest : List Node)
    (k : FsPath) (hr : rootlikeB n = true) :
    finalLookup (preC b0 n) rest k = finalLookup b0 (n :: rest) k := by
  have hd : n.is_dir = true := ((rootlikeB_iff n).mp hr).1
  have happ : appendedTo (n :: rest) k = appendedTo rest k := by
    rw [appendedTo_cons, if_neg]
    intro hh
    rw [hr] at hh
    exact absurd hh.1 (by simp)
  unfold finalLookup
  rw [happ, dirAt_cons]
  by_cases hk : k = n.path
  · by_cases hc : containsB b0 k = true
    · have hcn : containsB b0 n.path = true := hk ▸ hc
      rw [preC_of_contains b0 n hcn, if_pos hc, if_pos hc]
    · have hc' : containsB b0 k = false := by
        revert hc; cases containsB b0 k <;> simp
      have hcn' : containsB b0 n.path = false := hk ▸ hc'
      rw [preC_of_fresh b0 n hd hcn']
      have hcp : containsB (insertB b0 n.path []) k = true := by
        rw [hk]; exact containsB_insertB_self b0 n.path []
      rw [if_pos hcp, if_neg (by rw [hc']; simp)]
      have hlk : lookupB (insertB b0 n.path []) k = some [] := by
        rw [hk, lookupB_insertB, if_pos rfl]
      rw [hlk]
      have hhd : (n.is_dir && decide (n.path = k)) = true := by simp [hd, hk]
      rw [hhd, Bool.true_or, if_pos rfl]
      simp
  · have hpre : containsB (preC b0 n) k = containsB b0 k :=
      containsB_preC_ne b0 n k hk
    have hlpre : lookupB (preC b0 n) k = lookupB b0 k := lookupB_preC b0 n k hk
    have hhd : (n.is_dir && decide (n.path = k)) = false := by
      simp only [Bool.and_eq_false_iff, decide_eq_false_iff_not]
      right
      intro hh
      exact hk hh.symm
    rw [hpre, hlpre, hhd, Bool.false_or]

/-- One-step equation for `finalLookup`, non-root case with the parent
bucket present: the descriptor is appended to the parent's final bucket. -/
theorem finalLookup_step_push (b0 : Branches) (n : Node) (rest : List Node)
    (k p : FsPath) (hr : rootlikeB n = false) (hp : parentPath n.path = some p)
    (hc0 : containsB b0 p = true) :
    finalLookup (pushB (preC b0 n) p n) rest k = finalLookup b0 (n :: rest) k := by
  have hpn : ¬ p = n.path := parentPath_ne n.path p hp
  unfold finalLookup
  by_cases hk : k = p
  · subst hk
    obtain ⟨cs0, hcs0⟩ := (containsB_iff b0 k).mp hc0
    have hlpre : lookupB (preC b0 n) k = some cs0 :=
      (lookupB_preC b0 n k hpn).trans hcs0
    have hlpush : lookupB (pushB (preC b0 n) k n) k = some (cs0 ++ [n]) := by
      rw [lookupB_pushB, if_pos rfl, hlpre]
      rfl
    have hcpush : containsB (pushB (preC b0 n) k n) k = true := by
      unfold containsB
      rw [hlpush]
      rfl
    have happ : appendedTo (n :: rest) k = n :: appendedTo rest k := by
      rw [appendedTo_cons, if_pos ⟨hr, hp⟩]
    rw [hcpush, if_pos rfl, hc0, if_pos rfl, hlpush, hcs0, happ]
    simp
  · have hlpush : lookupB (pushB (preC b0 n) p n) k = lookupB (preC b0 n) k := by
      rw [lookupB_pushB, if_neg hk]
    have hcpush : containsB (pushB (preC b0 n) p n) k = containsB (preC b0 n) k :=
      containsB_pushB_eq (preC b0 n) p k n
    have happ : appendedTo (n :: rest) k = appendedTo rest k := by
      rw [appendedTo_cons, if_neg]
      intro hh
      rw [hp] at hh
      have : p = k := by
        have := hh.2
        simpa using this
      exact hk this.symm
    rw [hlpush, hcpush, happ, dirAt_cons]
    by_cases hkn : k = n.path
    · by_cases hcn : containsB b0 k = true
      · have hcn2 : containsB b0 n.path = true := hkn ▸ hcn
        rw [preC_of_contains b0 n hcn2, if_pos hcn, if_pos hcn]
      · have hcn' : containsB b0 k = false := by
          revert hcn; cases containsB b0 k <;> simp
        have hcn2 : containsB b0 n.path = false := hkn ▸ hcn'
        by_cases hd : n.is_dir = true
        · rw [preC_of_fresh b0 n hd hcn2]
          have hcp : containsB (insertB b0 n.path []) k = true := by
            rw [hkn]; exact containsB_insertB_self b0 n.path []
          rw [if_pos hcp, if_neg (by rw [hcn']; simp)]
          have hlk : lookupB (insertB b0 n.path []) k = some [] := by
            rw [hkn, lookupB_insertB, if_pos rfl]
          rw [hlk]
          have hhd : (n.is_dir && decide (n.path = k)) = true := by simp [hd, hkn]
          rw [hhd, Bool.true_or, if_pos rfl]
          simp
        · rw [preC_of_not_dir b0 n hd]
          have hhd : (n.is_dir && decide (n.path = k)) = false := by
            revert hd; cases n.is_dir <;> simp
          rw [hhd, Bool.false_or]
    · have hpre : containsB (preC b0 n) k = containsB b0 k :=
        containsB_preC_ne b0 n k hkn
      have hlpre : lookupB (preC b0 n) k = lookupB b0 k := lookupB_preC b0 n k hkn
      have hhd : (n.is_dir && decide (n.path = k)) = false := by
        simp only [Bool.and_eq_false_iff, decide_eq_false_iff_not]
        right
        intro hh
        exact hkn hh.symm
      rw [hpre, hlpre, hhd, Bool.false_or]

/-- Characterization of the aggregation loop under parent-before-child
arrival: the fold succeeds, yields the last depth-0 directory as the root,
and every final bucket is the start bucket extended, in arrival order, by
exactly the non-root descriptors whose computed parent is its key. -/
theorem traverseFold_char :
    ∀ (s : List Node) (seen : List FsPath) (r0 : Option Node) (b0 : Branches),
      parentsFirstB seen s = true →
      (∀ p, p ∈ seen → containsB b0 p = true) →
      ∃ b, traverseFold s (r0, b0) = Except.ok (lastRoot r0 s, b) ∧
        ∀ k, lookupB b k = finalLookup b0 s k := by
  intro s
  induction s with
  | nil =>
    intro seen r0 b0 _ _
    refine ⟨b0, rfl, ?_⟩
    intro k
    unfold finalLookup appendedTo dirAt
    cases h : lookupB b0 k with
    | none =>
      rw [if_neg, if_neg] <;> simp [containsB, h]
    | some cs =>
      rw [if_pos (by simp [containsB, h])]
      simp
  | cons n rest ih =>
    intro seen r0 b0 hpf hseen
    have hpf' := hpf
    unfold parentsFirstB at hpf'
    rw [Bool.and_eq_true] at hpf'
    obtain ⟨hHead, hTail⟩ := hpf'
    cases hr : rootlikeB n with
    | true =>
      obtain ⟨hd, h0⟩ := (rootlikeB_iff n).mp hr
      have hstep := step_rootlike r0 b0 n hd h0
      have hseen' : ∀ p, p ∈ n.path :: seen → containsB (preC b0 n) p = true := by
        intro p hp
        rcases List.mem_cons.mp hp with rfl | hp
        · exact containsB_preC_self b0 n hd
        · exact containsB_preC b0 n p (hseen p hp)
      have hTail2 : parentsFirstB (n.path :: seen) rest = true := by
        rw [hd] at hTail
        simpa using hTail
      obtain ⟨b, hfold, hchar⟩ := ih (n.path :: seen) (some n) (preC b0 n) hTail2 hseen'
      refine ⟨b, ?_, ?_⟩
      · rw [traverseFold_cons n rest (r0, b0) (some n, preC b0 n) hstep, hfold]
        have : lastRoot r0 (n :: rest) = lastRoot (some n) rest := by
          rw [lastRoot_cons, hr]
          simp
        rw [this]
      · intro k
        rw [hchar k, finalLookup_step_root b0 n rest k hr]
    | false =>
      have hnr : ¬ (n.is_dir = true ∧ n.depth = 0) := by
        intro hh
        rw [(rootlikeB_iff n).mpr hh] at hr
        exact absurd hr (by simp)
      rw [hr] at hHead
      simp only [Bool.false_or] at hHead
      cases hp : parentPath n.path with
      | none => rw [hp] at hHead; exact absurd hHead (by simp)
      | some p =>
        rw [hp] at hHead
        have hc0 : containsB b0 p = true := hseen p ((memPath_iff p seen).mp hHead)
        have hcpre : containsB (preC b0 n) p = true := containsB_preC b0 n p hc0
        have hstep := step_nonroot_push r0 b0 n p hnr hp hcpre
        have hseen' : ∀ q, q ∈ (if n.is_dir then n.path :: seen else seen) →
            containsB (pushB (preC b0 n) p n) q = true := by
          intro q hq
          by_cases hd : n.is_dir = true
          · rw [if_pos hd] at hq
            rcases List.mem_cons.mp hq with rfl | hq
            · exact containsB_pushB _ p n.path n (containsB_preC_self b0 n hd)
            · exact containsB_pushB _ p q n (containsB_preC b0 n q (hseen q hq))
          · rw [if_neg hd] at hq
            exact containsB_pushB _ p q n (containsB_preC b0 n q (hseen q hq))
        obtain ⟨b, hfold, hchar⟩ := ih (if n.is_dir then n.path :: seen else seen) r0
          (pushB (preC b0 n) p n) hTail hseen'
        refine ⟨b, ?_, ?_⟩
        · rw [traverseFold_cons n rest (r0, b0) (r0, pushB (preC b0 n) p n) hstep, hfold]
          have : lastRoot r0 (n :: rest) = lastRoot r0 rest := by
            rw [lastRoot_cons, hr]
            simp
          rw [this]
        · intro k
          rw [hchar k, finalLookup_step_push b0 n rest k p hr hp hc0]

/-- A descriptor whose file name is the last component of its (nonempty)
path — true of every walker-produced node. -/
def wfPathB (n : Node) : Bool :=
  !n.path.isEmpty && decide (n.path = n.path.dropLast ++ [n.file_name])

def wfStreamB (s : List Node) : Bool := s.all wfPathB

theorem wfPathB_parent {n : Node} (h : wfPathB n = true) {p : FsPath}
    (hp : parentPath n.path = some p) : n.path = p ++ [n.file_name] := by
  unfold wfPathB at h
  rw [Bool.and_eq_true, decide_eq_true_eq] at h
  obtain ⟨hq, _⟩ := parentPath_eq_some n.path p hp
  rw [hq]
  exact h.2

theorem mem_appendedTo {s : List Node} {k : FsPath} {c : Node}
    (h : c ∈ appendedTo s k) :
    c ∈ s ∧ rootlikeB c = false ∧ parentPath c.path = some k := by
  unfold appendedTo at h
  rw [List.mem_filter] at h
  obtain ⟨hm, hpred⟩ := h
  rw [Bool.and_eq_true, decide_eq_true_eq] at hpred
  refine ⟨hm, ?_, hpred.2⟩
  have := hpred.1
  revert this
  cases rootlikeB c <;> simp

/-- A final bucket, seen through `finalLookup` from the empty start map, is
exactly the arrival-ordered parent filter. -/
theorem finalLookup_nil_eq (s : List Node) (k : FsPath) :
    finalLookup [] s k = if dirAt s k then some (appendedTo s k) else none := by
  unfold finalLookup
  rw [if_neg]
  simp [containsB]

theorem finalMap_coherent {s : List Node} (hwf : wfStreamB s = true)
    {b : Branches} (hchar : ∀ k, lookupB b k = finalLookup [] s k) :
    Coherent b := by
  intro k cs hcs c hc
  rw [hchar k, finalLookup_nil_eq] at hcs
  by_cases hda : dirAt s k = true
  · rw [if_pos hda] at hcs
    have hcs' : cs = appendedTo s k := by
      have := hcs
      simp only [Option.some.injEq] at this
      exact this.symm
    subst hcs'
    obtain ⟨hm, _, hp⟩ := mem_appendedTo hc
    have hwfc : wfPathB c = true := by
      unfold wfStreamB at hwf
      rw [List.all_eq_true] at hwf
      exact hwf c hm
    exact wfPathB_parent hwfc hp
  · rw [if_neg hda] at hcs
    exact absurd hcs (by simp)

theorem finalMap_names {s : List Node} (hwf : wfStreamB s = true)
    (hnodup : (s.map Node.path).Nodup) {b : Branches}
    (hchar : ∀ k, lookupB b k = finalLookup [] s k) : NamesDistinct b := by
  intro k cs hcs
  rw [hchar k, finalLookup_nil_eq] at hcs
  by_cases hda : dirAt s k = true
  · rw [if_pos hda] at hcs
    have hcs' : cs = appendedTo s k := by
      have := hcs
      simp only [Option.some.injEq] at this
      exact this.symm
    subst hcs'
    have hsub : (appendedTo s k).Sublist s := List.filter_sublist s
    have hpaths : ((appendedTo s k).map Node.path).Nodup :=
      (hsub.map Node.path).nodup hnodup
    have hpw : (appendedTo s k).Pairwise fun a c => a.path ≠ c.path :=
      List.pairwise_map.mp hpaths
    have hwfAll : ∀ m ∈ s, wfPathB m = true := by
      unfold wfStreamB at hwf
      rw [List.all_eq_true] at hwf
      exact hwf
    refine List.pairwise_map.mpr (hpw.imp_of_mem ?_)
    intro a c hma hmc hpne hnm
    obtain ⟨hasm, _, hap⟩ := mem_appendedTo hma
    obtain ⟨hcsm, _, hcp⟩ := mem_appendedTo hmc
    have ha : a.path = k ++ [a.file_name] := wfPathB_parent (hwfAll a hasm) hap
    have hc2 : c.path = k ++ [c.file_name] := wfPathB_parent (hwfAll c hcsm) hcp
    exact hpne (by rw [ha, hc2, hnm])
  · rw [if_neg hda] at hcs
    exact absurd hcs (by simp)

theorem any_perm {α : Type} {l1 l2 : List α} (h : l1.Perm l2) (f : α → Bool) :
    l1.any f = l2.any f := by
  rw [Bool.eq_iff_iff, List.any_eq_true, List.any_eq_true]
  constructor
  · rintro ⟨x, hx, hfx⟩; exact ⟨x, h.mem_iff.mp hx, hfx⟩
  · rintro ⟨x, hx, hfx⟩; exact ⟨x, h.mem_iff.mpr hx, hfx⟩

/-- Permuting the stream permutes every final bucket and preserves bucket
existence. -/
theorem finalLookup_perm {s1 s2 : List Node} (h : s1.Perm s2) (k : FsPath) :
    OptPerm (finalLookup [] s1 k) (finalLookup [] s2 k) := by
  rw [finalLookup_nil_eq, finalLookup_nil_eq]
  have hda : dirAt s1 k = dirAt s2 k := any_perm h _
  rw [hda]
  by_cases hd : dirAt s2 k = true
  · rw [if_pos hd, if_pos hd]
    exact h.filter _
  · rw [if_neg hd, if_neg hd]
    trivial

theorem lastRoot_of_no_root :
    ∀ (s : List Node) (r0 : Option Node), (∀ n ∈ s, rootlikeB n = false) →
      lastRoot r0 s = r0 := by
  intro s
  induction s with
  | nil => intro r0 _; rfl
  | cons n rest ih =>
    intro r0 h
    rw [lastRoot_cons, h n (List.mem_cons_self n rest)]
    simp only [Bool.false_eq_true, if_false]
    exact ih r0 fun m hm => h m (List.mem_cons_of_mem n hm)

theorem lastRoot_of_filter_singleton :
    ∀ (s : List Node) (r0 : Option Node) (r : Node),
      s.filter rootlikeB = [r] → lastRoot r0 s = some r := by
  intro s
  induction s with
  | nil => intro r0 r h; exact absurd h (by simp)
  | cons n rest ih =>
    intro r0 r h
    rw [List.filter_cons] at h
    by_cases hr : rootlikeB n = true
    · rw [if_pos hr] at h
      simp only [List.cons.injEq] at h
      obtain ⟨rfl, hrest⟩ := h
      rw [lastRoot_cons, if_pos hr]
      apply lastRoot_of_no_root
      intro m hm
      have := List.filter_eq_nil_iff.mp hrest m hm
      revert this
      cases rootlikeB m <;> simp
    · have hr' : rootlikeB n = false := by revert hr; cases rootlikeB n <;> simp
      rw [if_neg (by rw [hr']; simp)] at h
      rw [lastRoot_cons, hr']
      simp only [Bool.false_eq_true, if_false]
      exact ih r0 r h

/-- Aggregation under parent-before-child arrival with a unique depth-0
directory: it succeeds, the root is that directory, and the final map is
`finalLookup`. -/
theorem aggregate_char (s : List Node) (hpf : parentsFirstB [] s = true)
    (huniq : s.countP rootlikeB = 1) :
    ∃ r b, aggregate s = Except.ok (r, b) ∧ s.filter rootlikeB = [r] ∧
      ∀ k, lookupB b k = finalLookup [] s k := by
  obtain ⟨b, hfold, hchar⟩ := traverseFold_char s [] none []
    hpf (fun p hp => absurd hp (by simp))
  have hlen : (s.filter rootlikeB).length = 1 := by
    rw [← List.countP_eq_length_filter]
    exact huniq
  obtain ⟨r, hr⟩ := List.length_eq_one.mp hlen
  have hlast : lastRoot none s = some r := lastRoot_of_filter_singleton s none r hr
  refine ⟨r, b, ?_, hr, hchar⟩
  unfold aggregate
  rw [hfold, hlast]

/-- A descriptor that trips the `expected parent` error: not stored as root
and without a parent component. -/
def offenderB (n : Node) : Bool := !rootlikeB n && (parentPath n.path).isNone

theorem step_ok_of_not_offender (r0 : Option Node) (b0 : Branches) (n : Node)
    (h : offenderB n = false) :
    ∃ b', step r0 b0 n =
      Except.ok ((if rootlikeB n then some n else r0), b') := by
  unfold offenderB at h
  cases hr : rootlikeB n with
  | true =>
    obtain ⟨hd, h0⟩ := (rootlikeB_iff n).mp hr
    refine ⟨preC b0 n, ?_⟩
    rw [step_rootlike r0 b0 n hd h0]
    simp
  | false =>
    rw [hr] at h
    simp only [Bool.not_false, Bool.true_and] at h
    have hnr : ¬ (n.is_dir = true ∧ n.depth = 0) := by
      intro hh
      rw [(rootlikeB_iff n).mpr hh] at hr
      exact absurd hr (by simp)
    cases hp : parentPath n.path with
    | none => rw [hp] at h; exact absurd h (by simp)
    | some p =>
      rw [if_neg (by simp)]
      cases hc : containsB (preC b0 n) p with
      | true => exact ⟨pushB (preC b0 n) p n, step_nonroot_push r0 b0 n p hnr hp hc⟩
      | false => exact ⟨insertB (preC b0 n) p [], step_nonroot_insert r0 b0 n p hnr hp hc⟩

theorem fold_ok_of_no_offender :
    ∀ (s : List Node) (r0 : Option Node) (b0 : Branches),
      (∀ n ∈ s, offenderB n = false) →
      ∃ b, traverseFold s (r0, b0) = Except.ok (lastRoot r0 s, b) := by
  intro s
  induction s with
  | nil => intro r0 b0 _; exact ⟨b0, rfl⟩
  | cons n rest ih =>
    intro r0 b0 h
    obtain ⟨b1, hstep⟩ :=
      step_ok_of_not_offender r0 b0 n (h n (List.mem_cons_self n rest))
    obtain ⟨b, hfold⟩ := ih (if rootlikeB n then some n else r0) b1
      fun m hm => h m (List.mem_cons_of_mem n hm)
    refine ⟨b, ?_⟩
    rw [traverseFold_cons n rest (r0, b0) _ hstep, hfold, lastRoot_cons]

theorem fold_err_of_offender :
    ∀ (s : List Node) (r0 : Option Node) (b0 : Branches),
      (∃ n ∈ s, offenderB n = true) →
      traverseFold s (r0, b0) = Except.error Error.expectedParent := by
  intro s
  induction s with
  | nil => intro r0 b0 h; exact absurd h (by simp)
  | cons n rest ih =>
    intro r0 b0 h
    cases ho : offenderB n with
    | true =>
      unfold offenderB at ho
      rw [Bool.and_eq_true] at ho
      have hnr : ¬ (n.is_dir = true ∧ n.depth = 0) := by
        intro hh
        rw [(rootlikeB_iff n).mpr hh] at ho
        exact absurd ho.1 (by simp)
      have hp : parentPath n.path = none := by
        have := ho.2
        cases hpp : parentPath n.path
        · rfl
        · rw [hpp] at this; exact absurd this (by simp)
      exact traverseFold_cons_err n rest (r0, b0) Error.expectedParent
        (step_nonroot_err r0 b0 n hnr hp)
    | false =>
      obtain ⟨b1, hstep⟩ := step_ok_of_not_offender r0 b0 n ho
      rw [traverseFold_cons n rest (r0, b0) _ hstep]
      apply ih
      obtain ⟨m, hm, hmo⟩ := h
      rcases List.mem_cons.mp hm with rfl | hm'
      · rw [ho] at hmo; exact absurd hmo (by simp)
      · exact ⟨m, hm', hmo⟩

theorem lastRoot_invariant :
    ∀ (s : List Node) (r0 : Option Node),
      (∀ x, r0 = some x → rootlikeB x = true) →
      ∀ x, lastRoot r0 s = some x → rootlikeB x = true := by
  intro s
  induction s with
  | nil => intro r0 h x hx; exact h x hx
  | cons n rest ih =>
    intro r0 h x hx
    rw [lastRoot_cons] at hx
    refine ih _ ?_ x hx
    intro y hy
    by_cases hr : rootlikeB n = true
    · rw [if_pos hr] at hy
      have : n = y := by injection hy
      rw [← this]; exact hr
    · rw [if_neg hr] at hy
      exact h y hy

theorem lastRoot_some_stays :
    ∀ (s : List Node) (x : Node), (lastRoot (some x) s).isSome = true := by
  intro s
  induction s with
  | nil => intro x; rfl
  | cons n rest ih =>
    intro x
    rw [lastRoot_cons]
    by_cases hr : rootlikeB n = true
    · rw [if_pos hr]; exact ih n
    · rw [if_neg hr]; exact ih x

theorem lastRoot_isSome_of_mem :
    ∀ (s : List Node) (r0 : Option Node) (n : Node), n ∈ s → rootlikeB n = true →
      (lastRoot r0 s).isSome = true := by
  intro s
  induction s with
  | nil => intro r0 n h; exact absurd h (by simp)
  | cons m rest ih =>
    intro r0 n h hr
    rw [lastRoot_cons]
    rcases List.mem_cons.mp h with rfl | h'
    · rw [if_pos hr]; exact lastRoot_some_stays rest n
    · exact ih _ n h' hr

/-! ## The directory-size invariant of assembly -/

/-- A node as the walker hands it over: no children attached yet, and no
size on directories (only regular files carry a size at construction). -/
def freshNodeB (n : Node) : Bool :=
  n.children.isNone && (!n.is_dir || n.file_size.isNone)

/-- Every node stored in any bucket is fresh. -/
def freshMapB (b : Branches) : Bool :=
  b.all fun e => e.2.all freshNodeB

/-- `freshMapB` seen through lookups. -/
def FreshMap (b : Branches) : Prop :=
  ∀ k cs, lookupB b k = some cs → ∀ c ∈ cs, freshNodeB c = true

theorem freshMapB_to_prop {b : Branches} (h : freshMapB b = true) : FreshMap b := by
  intro k cs hcs c hc
  induction b with
  | nil => rw [lookupB_nil] at hcs; exact absurd hcs (by simp)
  | cons e rest ih =>
    unfold freshMapB at h
    rw [List.all_cons, Bool.and_eq_true] at h
    rw [lookupB_cons] at hcs
    by_cases he : e.1 = k
    · rw [if_pos he] at hcs
      have : e.2 = cs := by
        have := hcs
        simp only [Option.some.injEq] at this
        exact this
      rw [List.all_eq_true] at h
      exact h.1 c (this ▸ hc)
    · rw [if_neg he] at hcs
      exact ih h.2 hcs

theorem freshMap_of_subMap {b' b : Branches} (hs : SubMap b' b) (h : FreshMap b) :
    FreshMap b' := by
  intro k cs hcs c hc
  rcases hs k with he | he
  · exact h k cs (he ▸ hcs) c hc
  · rw [hcs] at he; exact absurd he (by simp)

theorem freshMap_eraseB {b : Branches} (h : FreshMap b) (k : FsPath) :
    FreshMap (eraseB b k) := freshMap_of_subMap (subMap_eraseB b k) h

/-- The local size rule of the claim at one node: an attached children list
forces the size to be the children's sum when positive and absent when the
sum is zero; a directory with no attached list has no size. -/
def localOkB (m : Node) : Bool :=
  match m.children with
  | some cs => decide (m.file_size = if 0 < sumSizes cs then some (sumSizes cs) else none)
  | none => !m.is_dir || m.file_size.isNone

/-- The size rule at every node of the (sub)tree. -/
def sizeOkAllB (n : Node) : Bool := (preorder n).all localOkB

theorem preorder_unfold (n : Node) : preorder n = n :: preorderO n.children := by
  cases n
  rfl

theorem preorderO_some (cs : List Node) : preorderO (some cs) = preorderL cs := rfl

theorem preorderL_cons (c : Node) (rest : List Node) :
    preorderL (c :: rest) = preorder c ++ preorderL rest := rfl

theorem all_preorderL (f : Node → Bool) :
    ∀ l : List Node, (preorderL l).all f = l.all fun c => (preorder c).all f := by
  intro l
  induction l with
  | nil => rfl
  | cons c rest ih =>
    unfold preorderL
    rw [List.all_append, ih, List.all_cons]

theorem sizeOkAllB_of_fresh (n : Node) (h : freshNodeB n = true) :
    sizeOkAllB n = true := by
  unfold freshNodeB at h
  rw [Bool.and_eq_true] at h
  have hcn : n.children = none := by
    have := h.1
    cases hc : n.children
    · rfl
    · rw [hc] at this; exact absurd this (by simp)
  unfold sizeOkAllB
  rw [preorder_unfold, hcn]
  unfold preorderO
  rw [List.all_cons]
  unfold localOkB
  rw [hcn]
  simp only [List.all_nil, Bool.and_true]
  exact h.2

/-- Assembly establishes the directory-size rule everywhere, for any sort
order, provided the inputs are fresh. -/
theorem assemble_sizeOk (f : Nat) :
    (∀ n b ord, FreshMap b → freshNodeB n = true → n.is_dir = true →
      sizeOkAllB (assembleGo f n b ord).1 = true) ∧
      (∀ cs b ord, FreshMap b → (∀ c ∈ cs, freshNodeB c = true) →
        ∀ c' ∈ (assembleList f cs b ord).1, sizeOkAllB c' = true) := by
  induction f with
  | zero =>
    have hGo : ∀ n b ord, FreshMap b → freshNodeB n = true → n.is_dir = true →
        sizeOkAllB (assembleGo 0 n b ord).1 = true := by
      intro n b ord _ hn _
      rw [assembleGo_zero]
      exact sizeOkAllB_of_fresh n hn
    refine ⟨hGo, ?_⟩
    intro cs
    induction cs with
    | nil =>
      intro b ord _ _ c' hc'
      rw [assembleList_nil] at hc'
      exact absurd hc' (by simp)
    | cons c rest ih =>
      intro b ord hb hcs c' hc'
      rw [assembleList_cons] at hc'
      dsimp only at hc'
      rcases List.mem_cons.mp hc' with rfl | hc''
      · by_cases hd : c.is_dir = true
        · simp only [if_pos hd, assembleGo_zero]
          exact sizeOkAllB_of_fresh c (hcs c (List.mem_cons_self c rest))
        · simp only [if_neg hd]
          exact sizeOkAllB_of_fresh c (hcs c (List.mem_cons_self c rest))
      · by_cases hd : c.is_dir = true
        · simp only [if_pos hd, assembleGo_zero] at hc''
          exact ih b ord hb (fun m hm => hcs m (List.mem_cons_of_mem c hm)) c' hc''
        · simp only [if_neg hd] at hc''
          exact ih b ord hb (fun m hm => hcs m (List.mem_cons_of_mem c hm)) c' hc''
  | succ f ih =>
    have hGo : ∀ n b ord, FreshMap b → freshNodeB n = true → n.is_dir = true →
        sizeOkAllB (assembleGo (f + 1) n b ord).1 = true := by
      intro n b ord hb hn hd
      cases h : lookupB b n.path with
      | none =>
        rw [assembleGo_succ_none f ord h]
        exact sizeOkAllB_of_fresh n hn
      | some cs =>
        rw [assembleGo_succ_some f ord h]
        have hcs : ∀ c ∈ cs, freshNodeB c = true := hb n.path cs h
        have hb' : FreshMap (eraseB b n.path) := freshMap_eraseB hb n.path
        have hkids := ih.2 cs (eraseB b n.path) ord hb' hcs
        set res := assembleList f cs (eraseB b n.path) ord with hres
        have hnone : n.file_size = none := by
          unfold freshNodeB at hn
          rw [Bool.and_eq_true] at hn
          have := hn.2
          rw [hd] at this
          simp only [Bool.not_true, Bool.false_or] at this
          cases hfs : n.file_size
          · rfl
          · rw [hfs] at this; exact absurd this (by simp)
        -- the final children list and its sum
        have main : ∀ L : List Node, L.Perm res.1 →
            sizeOkAllB (Node.set_children
              (if 0 < sumSizes res.1 then
                Node.set_file_size (Node.set_children n res.1) (sumSizes res.1)
               else Node.set_children n res.1) L) = true := by
          intro L hL
          set m := Node.set_children
            (if 0 < sumSizes res.1 then
              Node.set_file_size (Node.set_children n res.1) (sumSizes res.1)
             else Node.set_children n res.1) L with hm
          have hmc : m.children = some L := by
            rw [hm, Node.children_set_children]
          have hmfs : m.file_size =
              if 0 < sumSizes res.1 then some (sumSizes res.1) else none := by
            rw [hm]
            by_cases hpos : 0 < sumSizes res.1
            · rw [if_pos hpos, if_pos hpos]
              simp
            · rw [if_neg hpos, if_neg hpos]
              simp [hnone]
          unfold sizeOkAllB
          rw [preorder_unfold, List.all_cons, Bool.and_eq_true]
          constructor
          · unfold localOkB
            rw [hmc, hmfs, decide_eq_true_eq, sumSizes_perm hL]
          · rw [hmc, preorderO_some, all_preorderL, List.all_eq_true]
            intro c hc
            exact hkids c (hL.mem_iff.mp hc)
        unfold finishNode
        dsimp only
        cases Order.comparator ord with
        | none =>
          have hmn := main res.1 (List.Perm.refl res.1)
          by_cases hpos : 0 < sumSizes res.1
          · rw [if_pos hpos] at hmn ⊢
            rwa [set_children_after_size] at hmn
          · rw [if_neg hpos] at hmn ⊢
            rwa [set_children_set_children] at hmn
        | some le => exact main (sortNodes le res.1) (sortNodes_perm le res.1)
    refine ⟨hGo, ?_⟩
    intro cs
    induction cs with
    | nil =>
      intro b ord _ _ c' hc'
      rw [assembleList_nil] at hc'
      exact absurd hc' (by simp)
    | cons c rest ihl =>
      intro b ord hb hcs c' hc'
      rw [assembleList_cons] at hc'
      dsimp only at hc'
      rcases List.mem_cons.mp hc' with rfl | hc''
      · by_cases hd : c.is_dir = true
        · simp only [if_pos hd]
          exact hGo c b ord hb (hcs c (List.mem_cons_self c rest)) hd
        · simp only [if_neg hd]
          exact sizeOkAllB_of_fresh c (hcs c (List.mem_cons_self c rest))
      · by_cases hd : c.is_dir = true
        · simp only [if_pos hd] at hc''
          refine ihl (assembleGo (f + 1) c b ord).2 ord
            (freshMap_of_subMap ((assemble_subMap (f + 1)).1 c b ord) hb)
            (fun m hm => hcs m (List.mem_cons_of_mem c hm)) c' hc''
        · simp only [if_neg hd] at hc''
          exact ihl b ord hb (fun m hm => hcs m (List.mem_cons_of_mem c hm)) c' hc''

/-! ## Concrete nodes for witnesses and counterexamples -/

/-- A plain, unstyled directory descriptor at path `p`. -/
def mkDirNode (d : Nat) (p : FsPath) : Node :=
  Node.mk d none none (p.getLastD "") (some FType.dir) none p false defaultStyle
    none defaultStyle

/-- A plain, unstyled regular-file descriptor at path `p` with byte size
`sz`. -/
def mkFileNode (d : Nat) (p : FsPath) (sz : Nat) : Node :=
  Node.mk d (some sz) none (p.getLastD "") (some FType.file) none p false
    defaultStyle none defaultStyle

/-! ## Claim C1 -/

/-- C1, counterexample: the claim as stated is false.  The streams
`[root, a]` and `[a, root]` are permutations of the same two descriptors
(the root directory `r` and the 5-byte file `r/a`), yet the assembled trees
differ: when the file arrives before its parent's bucket exists, the loop
inserts an empty bucket and drops the file, so the second tree has no
children and no aggregated size. -/
theorem C1_claim_counterexample :
    ([mkDirNode 0 ["r"], mkFileNode 1 ["r", "a"] 5].Perm
      [mkFileNode 1 ["r", "a"] 5, mkDirNode 0 ["r"]]) ∧
      Tree.traverse [mkDirNode 0 ["r"], mkFileNode 1 ["r", "a"] 5] Order.name ≠
        Tree.traverse [mkFileNode 1 ["r", "a"] 5, mkDirNode 0 ["r"]] Order.name := by
  constructor
  · exact List.Perm.swap (mkFileNode 1 ["r", "a"] 5) (mkDirNode 0 ["r"]) []
  · intro h
    exact absurd (congrArg (fun e => (Except.map numChildren e).toOption) h) (by decide)

/-- C1 (amended): feeding any two parent-before-child permutations of the
same multiset of Entry Descriptors to the Aggregator and assembling yields
identical trees — same parent-child structure, same computed directory
sizes, same child order under the default by-name sort.  The amendment
restricts the arbitrary arrival order of the claim to orders in which
every non-root descriptor arrives after a directory at its parent path
(the delivery order the parallel walker actually guarantees); the
counterexample shows the unrestricted claim fails.  The streams carry
well-formed descriptors: nonempty paths ending in the file name, pairwise
distinct paths, and exactly one depth-0 directory. -/
theorem C1_order_independence_amended (s1 s2 : List Node)
    (hperm : s1.Perm s2)
    (hpf1 : parentsFirstB [] s1 = true) (hpf2 : parentsFirstB [] s2 = true)
    (hwf : wfStreamB s1 = true)
    (hnodup : (s1.map Node.path).Nodup)
    (huniq : s1.countP rootlikeB = 1) :
    Tree.traverse s1 Order.name = Tree.traverse s2 Order.name ∧
      ∃ t, Tree.traverse s1 Order.name = Except.ok t := by
  have hwf2 : wfStreamB s2 = true := by
    unfold wfStreamB at hwf ⊢
    rw [List.all_eq_true] at hwf ⊢
    exact fun m hm => hwf m (hperm.mem_iff.mpr hm)
  have hnodup2 : (s2.map Node.path).Nodup := ((hperm.map Node.path).nodup_iff).mp hnodup
  have huniq2 : s2.countP rootlikeB = 1 := by
    rw [← hperm.countP_eq rootlikeB]
    exact huniq
  obtain ⟨r1, b1, hag1, hfil1, hchar1⟩ := aggregate_char s1 hpf1 huniq
  obtain ⟨r2, b2, hag2, hfil2, hchar2⟩ := aggregate_char s2 hpf2 huniq2
  have hrr : r1 = r2 := by
    have hp : (s1.filter rootlikeB).Perm (s2.filter rootlikeB) := hperm.filter _
    rw [hfil1, hfil2] at hp
    have := List.perm_singleton.mp hp
    simpa using this
  subst hrr
  have hco1 : Coherent b1 := finalMap_coherent hwf hchar1
  have hco2 : Coherent b2 := finalMap_coherent hwf2 hchar2
  have hna1 : NamesDistinct b1 := finalMap_names hwf hnodup hchar1
  have hna2 : NamesDistinct b2 := finalMap_names hwf2 hnodup2 hchar2
  have hopt : ∀ p, OptPerm (lookupB b1 p) (lookupB b2 p) := by
    intro p
    rw [hchar1 p, hchar2 p]
    exact finalLookup_perm hperm p
  have hmain := assemble_perm (msize b1 + 1) (msize b2 + 1) r1 b1 b2
    (by omega) (by omega) hco1 hco2 hna1 hna2 (fun p _ => hopt p)
  unfold Tree.traverse assembledComponents assemble_tree
  rw [hag1, hag2]
  exact ⟨congrArg Except.ok hmain, _, rfl⟩

/-! ## Claim C2 -/

/-- C2, counterexample: the claim as stated is false.  The non-root file
descriptor `r/f` arrives while its parent's bucket does not exist; the loop
creates the bucket `["r"]` — but EMPTY, so the received descriptor is not
appended anywhere and is lost (the final state shows the empty bucket). -/
theorem C2_claim_counterexample :
    traverseFold [mkFileNode 1 ["r", "f"] 7] (none, []) =
      Except.ok (none, [(["r"], [])]) ∧
      lookupB [(["r"], [])] ["r"] = some [] := ⟨rfl, rfl⟩

/-- C2 (amended): for every non-root descriptor the Aggregator receives,
when the bucket keyed by its parent path (its path with the last component
stripped) already exists, the descriptor is appended to it; when it does
not exist, an empty bucket is created under the parent key and the
descriptor itself is discarded — it ends up in no bucket.  (The claim's
"created on first use, so no received descriptor is lost" is what fails:
the bucket created on first use does not receive the descriptor.) -/
theorem C2_parent_bucket_amended (r0 : Option Node) (b : Branches) (n : Node)
    (p : FsPath) (hnr : ¬ (n.is_dir = true ∧ n.depth = 0))
    (hp : parentPath n.path = some p) :
    (∀ cs, lookupB (preC b n) p = some cs →
      ∃ b', step r0 b n = Except.ok (r0, b') ∧ lookupB b' p = some (cs ++ [n])) ∧
      (lookupB (preC b n) p = none →
        (∀ k cs, lookupB b k = some cs → n ∉ cs) →
        ∃ b', step r0 b n = Except.ok (r0, b') ∧ lookupB b' p = some [] ∧
          ∀ k cs, lookupB b' k = some cs → n ∉ cs) := by
  constructor
  · intro cs hcs
    have hc : containsB (preC b n) p = true := by
      unfold containsB
      rw [hcs]
      rfl
    refine ⟨pushB (preC b n) p n, step_nonroot_push r0 b n p hnr hp hc, ?_⟩
    rw [lookupB_pushB, if_pos rfl, hcs]
    rfl
  · intro hcs hfresh
    have hc : containsB (preC b n) p = false := by
      unfold containsB
      rw [hcs]
      rfl
    refine ⟨insertB (preC b n) p [], step_nonroot_insert r0 b n p hnr hp hc, ?_, ?_⟩
    · rw [lookupB_insertB, if_pos rfl]
    · intro k cs hk hmem
      rw [lookupB_insertB] at hk
      by_cases hkp : k = p
      · rw [if_pos hkp] at hk
        have : cs = [] := by
          have := hk
          simp only [Option.some.injEq] at this
          exact this.symm
        subst this
        exact absurd hmem (by simp)
      · rw [if_neg hkp] at hk
        unfold preC at hk
        by_cases hdc : n.is_dir ∧ ¬ containsB b n.path
        · rw [if_pos hdc, lookupB_insertB] at hk
          by_cases hkn : k = n.path
          · rw [if_pos hkn] at hk
            have : cs = [] := by
              have := hk
              simp only [Option.some.injEq] at this
              exact this.symm
            subst this
            exact absurd hmem (by simp)
          · rw [if_neg hkn] at hk
            exact hfresh k cs hk hmem
        · rw [if_neg hdc] at hk
          exact hfresh k cs hk hmem

/-- C2, witness: the amended theorem at two concrete inputs — the file
`r/f` appended when the bucket `["r"]` exists, and created-empty-and-lost
when it does not. -/
theorem C2_parent_bucket_witness :
    (∃ b', step none [(["r"], [])] (mkFileNode 1 ["r", "f"] 7) =
        Except.ok (none, b') ∧
        lookupB b' ["r"] = some ([] ++ [mkFileNode 1 ["r", "f"] 7])) ∧
      (∃ b', step none [] (mkFileNode 1 ["r", "f"] 7) = Except.ok (none, b') ∧
        lookupB b' ["r"] = some [] ∧
        ∀ k cs, lookupB b' k = some cs → mkFileNode 1 ["r", "f"] 7 ∉ cs) :=
  ⟨(C2_parent_bucket_amended none [(["r"], [])] (mkFileNode 1 ["r", "f"] 7) ["r"]
      (by decide) (by decide)).1 [] rfl,
    (C2_parent_bucket_amended none [] (mkFileNode 1 ["r", "f"] 7) ["r"]
      (by decide) (by decide)).2 rfl (by intro k cs hk; rw [lookupB_nil] at hk; exact absurd hk (by simp))⟩

/-! ## Pruning lemmas -/

theorem pruneNode_children (n : Node) :
    (pruneNode n).children = pruneO n.children := by cases n; rfl

theorem pruneNode_is_dir (n : Node) : (pruneNode n).is_dir = n.is_dir := by
  cases n; rfl

theorem onlyDirsB_unfold (n : Node) :
    onlyDirsB n = ((n.children.isNone || n.is_dir) && onlyDirsBO n.children) := by
  cases n; rfl

mutual
/-- After pruning, every directory in the forest below the current node has
at least one child. -/
theorem pruneNode_sound : ∀ (n : Node), onlyDirsB n = true →
    ∀ m, m ∈ preorderO (pruneNode n).children → m.is_dir = true → 0 < numChildren m
  | Node.mk d fs cs nm ft ino p si st tgt tst => by
    intro h m hm hdm
    rw [pruneNode_children] at hm
    have hO : onlyDirsBO cs = true := by
      rw [onlyDirsB_unfold, Bool.and_eq_true] at h
      exact h.2
    exact pruneO_sound cs hO m hm hdm

theorem pruneO_sound : ∀ (o : Option (List Node)), onlyDirsBO o = true →
    ∀ m, m ∈ preorderO (pruneO o) → m.is_dir = true → 0 < numChildren m
  | Option.none => by
    intro _ m hm
    exact absurd hm (by simp [pruneO, preorderO])
  | some l => by
    intro h m hm hdm
    exact pruneL_sound l h m hm hdm

theorem pruneL_sound : ∀ (l : List Node), onlyDirsBL l = true →
    ∀ m, m ∈ preorderL (pruneL l) → m.is_dir = true → 0 < numChildren m
  | [] => by
    intro _ m hm
    exact absurd hm (by simp [pruneL, preorderL])
  | c :: rest => by
    intro h m hm hdm
    have hc : onlyDirsB c = true ∧ onlyDirsBL rest = true := by
      unfold onlyDirsBL at h
      rw [Bool.and_eq_true] at h
      exact h
    by_cases hd : c.is_dir = true
    · unfold pruneL at hm
      rw [if_pos hd] at hm
      by_cases h0 : 0 < numChildren c
      · rw [if_pos h0] at hm
        by_cases hk : 0 < numChildren (pruneNode c)
        · rw [if_pos hk] at hm
          rw [preorderL_cons] at hm
          rcases List.mem_append.mp hm with hm1 | hm2
          · rw [preorder_unfold] at hm1
            rcases List.mem_cons.mp hm1 with rfl | hm1'
            · exact hk
            · exact pruneNode_sound c hc.1 m hm1' hdm
          · exact pruneL_sound rest hc.2 m hm2 hdm
        · rw [if_neg hk] at hm
          exact pruneL_sound rest hc.2 m hm hdm
      · rw [if_neg h0] at hm
        exact pruneL_sound rest hc.2 m hm hdm
    · unfold pruneL at hm
      rw [if_neg hd] at hm
      unfold preorderL at hm
      rcases List.mem_append.mp hm with hm1 | hm2
      · rw [preorder_unfold] at hm1
        have hnone : c.children = none := by
          have h1 := hc.1
          rw [onlyDirsB_unfold, Bool.and_eq_true, Bool.or_eq_true] at h1
          rcases h1.1 with hh | hh
          · cases hcc : c.children
            · rfl
            · rw [hcc] at hh; exact absurd hh (by simp)
          · exact absurd hh hd
        rw [hnone] at hm1
        rcases List.mem_cons.mp hm1 with rfl | hm1'
        · exact absurd hdm hd
        · exact absurd hm1' (by simp [preorderO])
      · exact pruneL_sound rest hc.2 m hm2 hdm
end

mutual
/-- Pruning removes no file: the non-directory nodes of the tree, in
preorder, are unchanged. -/
theorem prune_files : ∀ (n : Node), onlyDirsB n = true →
    (preorder (pruneNode n)).filter (fun m => !m.is_dir) =
      (preorder n).filter (fun m => !m.is_dir)
  | Node.mk d fs cs nm ft ino p si st tgt tst => by
    intro h
    rw [onlyDirsB_unfold, Bool.and_eq_true] at h
    rw [preorder_unfold, preorder_unfold, pruneNode_children]
    rw [List.filter_cons, List.filter_cons]
    have hdir : (pruneNode (Node.mk d fs cs nm ft ino p si st tgt tst)).is_dir =
        (Node.mk d fs cs nm ft ino p si st tgt tst).is_dir :=
      pruneNode_is_dir _
    by_cases hd : (Node.mk d fs cs nm ft ino p si st tgt tst).is_dir = true
    · rw [if_neg (by rw [hdir, hd]; simp), if_neg (by rw [hd]; simp)]
      exact prune_files_O cs h.2
    · have hnone : cs = none := by
        have h1 := h.1
        rw [Bool.or_eq_true] at h1
        rcases h1 with hh | hh
        · cases hcc : cs with
          | none => rfl
          | some val =>
            simp [Node.children] at hh
            exact hcc ▸ hh
        · exact absurd hh hd
      subst hnone
      rfl

theorem prune_files_O : ∀ (o : Option (List Node)), onlyDirsBO o = true →
    (preorderO (pruneO o)).filter (fun m => !m.is_dir) =
      (preorderO o).filter (fun m => !m.is_dir)
  | Option.none => by intro _; rfl
  | some l => by
    intro h
    exact prune_files_L l h

theorem prune_files_L : ∀ (l : List Node), onlyDirsBL l = true →
    (preorderL (pruneL l)).filter (fun m => !m.is_dir) =
      (preorderL l).filter (fun m => !m.is_dir)
  | [] => by intro _; rfl
  | c :: rest => by
    intro h
    have hc : onlyDirsB c = true ∧ onlyDirsBL rest = true := by
      unfold onlyDirsBL at h
      rw [Bool.and_eq_true] at h
      exact h
    by_cases hd : c.is_dir = true
    · unfold pruneL
      rw [if_pos hd]
      by_cases h0 : 0 < numChildren c
      · rw [if_pos h0]
        by_cases hk : 0 < numChildren (pruneNode c)
        · rw [if_pos hk]
          have hg1 : (preorderL (pruneNode c :: pruneL rest)).filter (fun m => !m.is_dir) =
              (preorder (pruneNode c)).filter (fun m => !m.is_dir) ++
                (preorderL (pruneL rest)).filter (fun m => !m.is_dir) := by
            rw [preorderL_cons, List.filter_append]
          have hg2 : (preorderL (c :: rest)).filter (fun m => !m.is_dir) =
              (preorder c).filter (fun m => !m.is_dir) ++
                (preorderL rest).filter (fun m => !m.is_dir) := by
            rw [preorderL_cons, List.filter_append]
          rw [hg1, hg2, prune_files c hc.1, prune_files_L rest hc.2]
        · rw [if_neg hk]
          have hk0 : numChildren (pruneNode c) = 0 := by omega
          have hfc : (preorder (pruneNode c)).filter (fun m => !m.is_dir) = [] := by
            rw [preorder_unfold, List.filter_cons,
              if_neg (by rw [pruneNode_is_dir, hd]; simp)]
            unfold numChildren at hk0
            cases hcc : (pruneNode c).children with
            | none => rfl
            | some l2 =>
              have hl2 : l2 = [] := by
                rw [hcc] at hk0
                simp only [Option.getD] at hk0
                exact List.length_eq_zero.mp hk0
              subst hl2
              rfl
          have hpc := prune_files c hc.1
          have hfc2 : (preorder c).filter (fun m => !m.is_dir) = [] := hpc.symm.trans hfc
          have hgoal : (preorderL (c :: rest)).filter (fun m => !m.is_dir) =
              (preorder c).filter (fun m => !m.is_dir) ++
                (preorderL rest).filter (fun m => !m.is_dir) := by
            rw [preorderL_cons, List.filter_append]
          rw [hgoal, hfc2, List.nil_append]
          exact prune_files_L rest hc.2
      · rw [if_neg h0]
        have h00 : numChildren c = 0 := by omega
        have hfc2 : (preorder c).filter (fun m => !m.is_dir) = [] := by
          rw [preorder_unfold, List.filter_cons, if_neg (by rw [hd]; simp)]
          unfold numChildren at h00
          cases hcc : c.children with
          | none => rfl
          | some l2 =>
            have hl2 : l2 = [] := by
              rw [hcc] at h00
              simp only [Option.getD] at h00
              exact List.length_eq_zero.mp h00
            subst hl2
            rfl
        have hgoal : (preorderL (c :: rest)).filter (fun m => !m.is_dir) =
            (preorder c).filter (fun m => !m.is_dir) ++
              (preorderL rest).filter (fun m => !m.is_dir) := by
          rw [preorderL_cons, List.filter_append]
        rw [hgoal, hfc2, List.nil_append]
        exact prune_files_L rest hc.2
    · unfold pruneL
      rw [if_neg hd]
      rw [preorderL_cons, preorderL_cons, List.filter_append, List.filter_append,
        prune_files_L rest hc.2]
end

/-! ## Claim C7 -/

/-- The tree `r/` containing only the empty directory `r/e` (children
already attached, as after assembly). -/
def c7tree : Node :=
  Node.mk 0 none
    (some [Node.mk 1 none (some []) "e" (some FType.dir) none ["r", "e"] false
      defaultStyle none defaultStyle])
    "r" (some FType.dir) none ["r"] false defaultStyle none defaultStyle

/-- C7, counterexample: the claim as stated is false.  Pruning the tree
whose root holds one empty directory discards that directory, leaving the
ROOT itself a directory with zero children — so the pruned tree does
contain a directory node with zero children (the root is never discarded,
only directory CHILDREN are). -/
theorem C7_claim_counterexample :
    pruneNode c7tree =
      Node.mk 0 none (some []) "r" (some FType.dir) none ["r"] false defaultStyle
        none defaultStyle ∧
      ((preorder (pruneNode c7tree)).all
        fun m => !m.is_dir || decide (0 < numChildren m)) = false := by
  constructor
  · rfl
  · rfl

/-- C7 (amended): when directory-pruning is enabled,
every directory BELOW THE ROOT in the pruned tree has at least one child
(directories that end up with zero children after their own children are
pruned are recursively discarded), and file nodes are never removed — the
non-directory nodes of the pruned tree are exactly those of the original,
in order.  The root itself is exempt: it is nobody's child, so it can
remain with zero children. -/
theorem C7_prune_amended (t : Node) (h : onlyDirsB t = true) :
    (∀ m ∈ preorderO (pruneNode t).children, m.is_dir = true → 0 < numChildren m) ∧
      (preorder (pruneNode t)).filter (fun m => !m.is_dir) =
        (preorder t).filter (fun m => !m.is_dir) :=
  ⟨fun m hm => pruneNode_sound t h m hm, prune_files t h⟩

/-- C7, witness: the amended theorem at the tree
`r/ { a.txt, e/ (empty), sub/ { b.txt } }`: `e` is discarded, `sub`
survives with its child, both files survive. -/
theorem C7_prune_witness :
    (∀ m ∈ preorderO (pruneNode (Node.mk 0 none
        (some [mkFileNode 1 ["r", "a"] 10,
          Node.mk 1 none (some []) "e" (some FType.dir) none ["r", "e"] false
            defaultStyle none defaultStyle,
          Node.mk 1 none (some [mkFileNode 2 ["r", "sub", "b"] 20]) "sub"
            (some FType.dir) none ["r", "sub"] false defaultStyle none defaultStyle])
        "r" (some FType.dir) none ["r"] false defaultStyle none
        defaultStyle)).children,
      m.is_dir = true → 0 < numChildren m) ∧
      (preorder (pruneNode (Node.mk 0 none
        (some [mkFileNode 1 ["r", "a"] 10,
          Node.mk 1 none (some []) "e" (some FType.dir) none ["r", "e"] false
            defaultStyle none defaultStyle,
          Node.mk 1 none (some [mkFileNode 2 ["r", "sub", "b"] 20]) "sub"
            (some FType.dir) none ["r", "sub"] false defaultStyle none
            defaultStyle])
        "r" (some FType.dir) none ["r"] false defaultStyle none
        defaultStyle))).filter (fun m => !m.is_dir) =
        (preorder (Node.mk 0 none
          (some [mkFileNode 1 ["r", "a"] 10,
            Node.mk 1 none (some []) "e" (some FType.dir) none ["r", "e"] false
              defaultStyle none defaultStyle,
            Node.mk 1 none (some [mkFileNode 2 ["r", "sub", "b"] 20]) "sub"
              (some FType.dir) none ["r", "sub"] false defaultStyle none
              defaultStyle])
          "r" (some FType.dir) none ["r"] false defaultStyle none
          defaultStyle)).filter (fun m => !m.is_dir) :=
  C7_prune_amended _ (by decide)

/-! ## Claim C8 -/

/-- A concrete symlink descriptor `link` pointing at the two-component
target path `a/b.txt`, icons disabled, default styles. -/
def c8link : Node :=
  Node.mk 1 none none "link" (some FType.symlink) none ["r", "link"] false
    defaultStyle (some ["a", "b.txt"]) defaultStyle

/-- C8, counterexample: the claim as stated is false.  The symlink's
rendered line shows the target's WHOLE PATH (`a/b.txt`), not the target's
file name (`b.txt`): `symlink_target_file_name` returns
`path.as_os_str()`, the full target path. -/
theorem C8_claim_counterexample :
    Node.display c8link = "link -> a/b.txt " ∧
      Node.display c8link ≠
        c8link.style.paint c8link.file_name ++ " -> " ++
          c8link.symlink_target_style.paint "b.txt" ++ " " ++ c8link.size_display := by
  constructor
  · rfl
  · intro h
    exact absurd h (by decide)

/-- C8 (amended): for every symlink node (with icons disabled), the
rendered line is the symlink's own name styled by the node's own style,
then ` -> `, then the target's FULL PATH styled independently by the
target's style, then a space and the size display.  (The claim's "target's
file name" is amended to the target's full path; the independent styling
and the arrow are as claimed.) -/
theorem C8_symlink_render_amended (n : Node) (tgt : FsPath)
    (hs : n.symlink_target = some tgt) (hicon : n.show_icon = false) :
    Node.display n =
      n.style.paint n.file_name ++ " -> " ++
        n.symlink_target_style.paint (pathString tgt) ++ " " ++ n.size_display := by
  unfold Node.display
  have hi : n.get_icon = none := by
    unfold Node.get_icon
    rw [hicon]
    simp
  have hl : n.stylize_link_name =
      some (n.style.paint n.file_name ++ " -> " ++
        n.symlink_target_style.paint (pathString tgt)) := by
    unfold Node.stylize_link_name Node.symlink_target_file_name
      Node.symlink_target_path Node.stylize Node.file_name_lossy
    rw [hs]
    rfl
  rw [hi, hl]
  dsimp only
  have h0 : ("" : String) ++ String.mk (List.replicate 0 ' ') = "" := rfl
  rw [h0, String.empty_append]

/-- C8, witness: the amended theorem at the concrete symlink `link` with
target `a/b.txt`. -/
theorem C8_symlink_render_witness :
    Node.display c8link =
      c8link.style.paint c8link.file_name ++ " -> " ++
        c8link.symlink_target_style.paint (pathString ["a", "b.txt"]) ++ " " ++
        c8link.size_display :=
  C8_symlink_render_amended c8link ["a", "b.txt"] rfl rfl

/-! ## Claim C3 -/

/-- C3: in the assembled tree, every node with an attached children list
(the root and every directory reached by assembly) has its size equal to
the sum of its direct children's sizes — files contributing their own
size, subdirectories their computed aggregate — whenever that sum is
nonzero, and has NO size (never zero) when the sum is zero; directories
left without an attached list carry no size either.  Holds for any sort
order, given walker-fresh inputs (no children attached yet, directories
sizeless). -/
theorem C3_directory_sizes (root : Node) (b : Branches) (ord : Order)
    (hd : root.is_dir = true) (hroot : freshNodeB root = true)
    (hb : freshMapB b = true) :
    sizeOkAllB (assemble_tree root b ord).1 = true :=
  (assemble_sizeOk (msize b + 1)).1 root b ord (freshMapB_to_prop hb) hroot hd

/-- C3, witness: the theorem applied to the root `r` with buckets
`r ↦ [a (10 bytes), sub/]` and `r/sub ↦ [b (20 bytes)]` under the default
sort (so `sub` aggregates 20 and `r` aggregates 30). -/
theorem C3_directory_sizes_witness :
    sizeOkAllB (assemble_tree (mkDirNode 0 ["r"])
      [(["r"], [mkFileNode 1 ["r", "a"] 10, mkDirNode 1 ["r", "sub"]]),
       (["r", "sub"], [mkFileNode 2 ["r", "sub", "b"] 20])] Order.name).1 = true :=
  C3_directory_sizes (mkDirNode 0 ["r"])
    [(["r"], [mkFileNode 1 ["r", "a"] 10, mkDirNode 1 ["r", "sub"]]),
     (["r", "sub"], [mkFileNode 2 ["r", "sub", "b"] 20])] Order.name
    (by decide) (by decide) (by decide)

/-! ## Claim C4 -/

/-- C4, counterexample: the claim as stated is false.  The single-element
stream holds a depth-0 descriptor (so missing-root should not apply per the
claim) whose parent path is formable (so expected-parent does not apply),
yet aggregation fails with `missing root` instead of succeeding: a depth-0
descriptor that is not a directory is never stored as root. -/
theorem C4_claim_counterexample :
    (mkFileNode 0 ["r", "f"] 1).depth = 0 ∧
      (parentPath (mkFileNode 0 ["r", "f"] 1).path).isSome = true ∧
      aggregate [mkFileNode 0 ["r", "f"] 1] = Except.error Error.missingRoot :=
  ⟨rfl, rfl, rfl⟩

/-- C4 (amended): if some descriptor that is not a depth-0 directory has no
parent component, aggregation fails with the fatal `expected parent` error
(raised during the stream, so it wins even if no root ever arrives); if
every descriptor's parent is formable and the stream closes without ever
producing a depth-0 DIRECTORY descriptor, aggregation fails with the fatal
`missing root` error; when a depth-0 directory appears and every other
descriptor's parent path can be formed, aggregation succeeds and hands off
a depth-0 directory as root. -/
theorem C4_error_conditions_amended (s : List Node) :
    ((∃ n ∈ s, offenderB n = true) →
      aggregate s = Except.error Error.expectedParent) ∧
      ((∀ n ∈ s, offenderB n = false) → (∀ n ∈ s, rootlikeB n = false) →
        aggregate s = Except.error Error.missingRoot) ∧
      ((∀ n ∈ s, offenderB n = false) → (∃ n ∈ s, rootlikeB n = true) →
        ∃ r b, aggregate s = Except.ok (r, b) ∧ r.is_dir = true ∧ r.depth = 0) := by
  refine ⟨?_, ?_, ?_⟩
  · intro h
    unfold aggregate
    rw [fold_err_of_offender s none [] h]
  · intro hno hroot
    obtain ⟨b, hfold⟩ := fold_ok_of_no_offender s none [] hno
    unfold aggregate
    rw [hfold, lastRoot_of_no_root s none hroot]
  · intro hno hroot
    obtain ⟨b, hfold⟩ := fold_ok_of_no_offender s none [] hno
    obtain ⟨n, hn, hr⟩ := hroot
    have hsome : (lastRoot none s).isSome = true := lastRoot_isSome_of_mem s none n hn hr
    cases hlast : lastRoot none s with
    | none => rw [hlast] at hsome; exact absurd hsome (by simp)
    | some r =>
      have hrl : rootlikeB r = true :=
        lastRoot_invariant s none (by intro x hx; exact absurd hx (by simp)) r hlast
      obtain ⟨hd, h0⟩ := (rootlikeB_iff r).mp hrl
      refine ⟨r, b, ?_, hd, h0⟩
      unfold aggregate
      rw [hfold, hlast]

/-- C4, witness: the amended trichotomy applied at three concrete streams —
a parentless non-root file (expected parent), a depth-0 file with a
formable parent (missing root), and a depth-0 directory (success). -/
theorem C4_error_conditions_witness :
    aggregate [mkFileNode 0 [] 1] = Except.error Error.expectedParent ∧
      aggregate [mkFileNode 0 ["r", "f"] 1] = Except.error Error.missingRoot ∧
      ∃ r b, aggregate [mkDirNode 0 ["r"]] = Except.ok (r, b) ∧
        r.is_dir = true ∧ r.depth = 0 :=
  ⟨(C4_error_conditions_amended [mkFileNode 0 [] 1]).1
      ⟨mkFileNode 0 [] 1, by simp, by decide⟩,
    (C4_error_conditions_amended [mkFileNode 0 ["r", "f"] 1]).2.1
      (by intro n hn; rw [List.mem_singleton.mp hn]; decide)
      (by intro n hn; rw [List.mem_singleton.mp hn]; decide),
    (C4_error_conditions_amended [mkDirNode 0 ["r"]]).2.2
      (by intro n hn; rw [List.mem_singleton.mp hn]; decide)
      ⟨mkDirNode 0 ["r"], by simp, by decide⟩⟩

/-! ## Claim C10 -/

/-- C10: a depth-0 descriptor is stored as the tree's root only when it is
a directory.  For any stream whose depth-0 descriptors are all
non-directories (and whose parent paths are formable), the run ends with
the `missing root` error; and a depth-0 non-directory descriptor is filed
under its computed parent path exactly like any other entry (appended to
the parent's bucket when it exists). -/
theorem C10_root_only_directory (s : List Node)
    (h1 : ∀ n ∈ s, n.depth = 0 → n.is_dir = false)
    (h2 : ∀ n ∈ s, (parentPath n.path).isSome = true) :
    aggregate s = Except.error Error.missingRoot ∧
      ∀ n r0 b p cs, n ∈ s → n.depth = 0 → parentPath n.path = some p →
        lookupB (preC b n) p = some cs →
        step r0 b n = Except.ok (r0, pushB (preC b n) p n) ∧
          lookupB (pushB (preC b n) p n) p = some (cs ++ [n]) := by
  constructor
  · have hno : ∀ n ∈ s, offenderB n = false := by
      intro n hn
      unfold offenderB
      have := h2 n hn
      cases hpp : parentPath n.path
      · rw [hpp] at this; exact absurd this (by simp)
      · simp [hpp]
    have hroot : ∀ n ∈ s, rootlikeB n = false := by
      intro n hn
      unfold rootlikeB
      by_cases h0 : n.depth = 0
      · rw [h1 n hn h0]; simp
      · simp [h0]
    obtain ⟨b, hfold⟩ := fold_ok_of_no_offender s none [] hno
    unfold aggregate
    rw [hfold, lastRoot_of_no_root s none hroot]
  · intro n r0 b p cs hn h0 hp hcs
    have hnr : ¬ (n.is_dir = true ∧ n.depth = 0) := by
      intro hh
      rw [h1 n hn h0] at hh
      exact absurd hh.1 (by simp)
    have hc : containsB (preC b n) p = true := by
      unfold containsB
      rw [hcs]
      rfl
    refine ⟨step_nonroot_push r0 b n p hnr hp hc, ?_⟩
    rw [lookupB_pushB, if_pos rfl, hcs]
    rfl

/-- C10, witness: the theorem applied to the one-element stream holding the
depth-0 file `r/f`: the run ends with `missing root`, and against a map
holding an empty bucket `["r"]` the descriptor is pushed under its parent. -/
theorem C10_root_only_directory_witness :
    aggregate [mkFileNode 0 ["r", "f"] 3] = Except.error Error.missingRoot ∧
      step none [(["r"], [])] (mkFileNode 0 ["r", "f"] 3) =
        Except.ok (none, pushB (preC [(["r"], [])] (mkFileNode 0 ["r", "f"] 3))
          ["r"] (mkFileNode 0 ["r", "f"] 3)) ∧
      lookupB (pushB (preC [(["r"], [])] (mkFileNode 0 ["r", "f"] 3)) ["r"]
          (mkFileNode 0 ["r", "f"] 3)) ["r"] =
        some ([] ++ [mkFileNode 0 ["r", "f"] 3]) := by
  have h := C10_root_only_directory [mkFileNode 0 ["r", "f"] 3]
    (by intro n hn; rw [List.mem_singleton.mp hn]; intro _; decide)
    (by intro n hn; rw [List.mem_singleton.mp hn]; decide)
  refine ⟨h.1, ?_⟩
  have h2 := h.2 (mkFileNode 0 ["r", "f"] 3) none [(["r"], [])] ["r"] []
    (by simp) rfl (by decide) rfl
  exact h2

/-- C1, witness: the amended theorem applied to two concrete
parent-before-child arrival orders of the four-descriptor stream
`r/, r/a (10 bytes), r/sub/, r/sub/b (20 bytes)` (siblings `a` and `sub`
swapped). -/
theorem C1_order_independence_witness :
    Tree.traverse [mkDirNode 0 ["r"], mkFileNode 1 ["r", "a"] 10,
        mkDirNode 1 ["r", "sub"], mkFileNode 2 ["r", "sub", "b"] 20] Order.name =
      Tree.traverse [mkDirNode 0 ["r"], mkDirNode 1 ["r", "sub"],
        mkFileNode 1 ["r", "a"] 10, mkFileNode 2 ["r", "sub", "b"] 20] Order.name ∧
      ∃ t, Tree.traverse [mkDirNode 0 ["r"], mkFileNode 1 ["r", "a"] 10,
        mkDirNode 1 ["r", "sub"], mkFileNode 2 ["r", "sub", "b"] 20] Order.name =
          Except.ok t :=
  C1_order_independence_amended _ _
    (List.Perm.cons (mkDirNode 0 ["r"])
      (List.Perm.append_right [mkFileNode 2 ["r", "sub", "b"] 20]
        (List.Perm.swap (mkDirNode 1 ["r", "sub"]) (mkFileNode 1 ["r", "a"] 10) [])))
    (by decide) (by decide) (by decide) (by decide) (by decide)

/-! ## Claim C9 -/

theorem join_foldl : ∀ (l : List String) (s : String),
    List.foldl (fun r t => r ++ t) s l =
      s ++ List.foldl (fun r t => r ++ t) "" l := by
  intro l
  induction l with
  | nil => intro s; exact (String.append_empty s).symm
  | cons a rest ih =>
    intro s
    rw [List.foldl_cons, List.foldl_cons, ih (s ++ a), ih ("" ++ a),
      String.empty_append, String.append_assoc]

theorem join_cons (s : String) (l : List String) :
    String.join (s :: l) = s ++ String.join l := by
  unfold String.join
  rw [List.foldl_cons, join_foldl, String.empty_append]

theorem join_append (a b : List String) :
    String.join (a ++ b) = String.join a ++ String.join b := by
  induction a with
  | nil => simp [String.join]
  | cons s rest ih =>
    rw [List.cons_append, join_cons, join_cons, ih, String.append_assoc]

theorem fmtChildren_cons (c : Node) (rest : List Node) (base : String)
    (level : Nat) :
    fmtChildren (c :: rest) base level =
      fmtOne c rest.isEmpty base level ++ fmtChildren rest base level := rfl

theorem entriesChildren_cons (c : Node) (rest : List Node) (base : String)
    (level : Nat) :
    entriesChildren (c :: rest) base level =
      entriesOne c rest.isEmpty base level ++
        entriesChildren rest base level := rfl

theorem specChildren_cons (c : Node) (rest : List Node) (flags : List Bool)
    (level : Nat) :
    specChildren (c :: rest) flags level =
      specOne c rest.isEmpty flags level ++ specChildren rest flags level := rfl

theorem fmtOne_eq (c : Node) (le : Bool) (base : String) (level : Nat) :
    fmtOne c le base level =
      extendLine (base ++ (if le then UPRT else VTRT)) c ++
        (if ¬ c.is_dir ∨ level < c.depth + 1 then ""
         else fmtChildrenO c.children
           (base ++ (if c.is_dir ∧ le then SEP else VT)) level) := by
  cases c; rfl

theorem entriesOne_eq (c : Node) (le : Bool) (base : String) (level : Nat) :
    entriesOne c le base level =
      (c, base ++ (if le then UPRT else VTRT)) ::
        (if ¬ c.is_dir ∨ level < c.depth + 1 then []
         else entriesChildrenO c.children
           (base ++ (if c.is_dir ∧ le then SEP else VT)) level) := by
  cases c; rfl

theorem specOne_eq (c : Node) (le : Bool) (flags : List Bool) (level : Nat) :
    specOne c le flags level =
      (c, specPfx flags le) ::
        (if ¬ c.is_dir ∨ level < c.depth + 1 then []
         else specChildrenO c.children (flags ++ [le]) level) := by
  cases c; rfl

mutual
/-- The rendered text of a children slice is the concatenation of its
displayed entries' lines. -/
theorem fmt_join : ∀ (l : List Node) (base : String) (level : Nat),
    fmtChildren l base level =
      String.join ((entriesChildren l base level).map
        fun e => extendLine e.2 e.1)
  | [], _, _ => rfl
  | c :: rest, base, level => by
    rw [fmtChildren_cons, entriesChildren_cons, List.map_append, join_append,
      fmt_join_one c rest.isEmpty base level, fmt_join rest base level]

theorem fmt_join_one : ∀ (c : Node) (le : Bool) (base : String) (level : Nat),
    fmtOne c le base level =
      String.join ((entriesOne c le base level).map fun e => extendLine e.2 e.1)
  | Node.mk d fs cs nm ft ino p si st tgt tst, le, base, level => by
    rw [fmtOne_eq, entriesOne_eq, List.map_cons, join_cons]
    dsimp only
    by_cases h : ¬ (Node.mk d fs cs nm ft ino p si st tgt tst).is_dir ∨
        level < (Node.mk d fs cs nm ft ino p si st tgt tst).depth + 1
    · rw [if_pos h, if_pos h]
      rfl
    · rw [if_neg h, if_neg h]
      exact congrArg _ (fmt_join_O cs _ level)

theorem fmt_join_O : ∀ (o : Option (List Node)) (base : String) (level : Nat),
    fmtChildrenO o base level =
      String.join ((entriesChildrenO o base level).map
        fun e => extendLine e.2 e.1)
  | Option.none, _, _ => rfl
  | some l, base, level => fmt_join l base level
end

/-- `Tree::fmt` output = the concatenation of the displayed entries'
lines. -/
theorem display_join (t : Tree) :
    Tree.display t =
      String.join ((Tree.entries t).map fun e => extendLine e.2 e.1) := by
  unfold Tree.display Tree.entries
  rw [List.map_cons, join_cons]
  dsimp only
  exact congrArg (fun s => extendLine "" t.root ++ s)
    (fmt_join_O t.root.children "" (t.level.getD USIZE_MAX))

/-- Appending one segment to the flag list appends the matching segment
string to the spec prefix. -/
theorem specPfx_snoc (flags : List Bool) (le : Bool) :
    String.join ((flags ++ [le]).map fun f => if f then SEP else VT) =
      String.join (flags.map fun f => if f then SEP else VT) ++
        (if le then SEP else VT) := by
  rw [List.map_append, join_append]
  simp [String.join]

mutual
/-- The accumulated prefix of the renderer equals the prefix recomputed
from the ancestors' lastness flags. -/
theorem entries_spec : ∀ (l : List Node) (flags : List Bool) (level : Nat),
    entriesChildren l
        (String.join (flags.map fun f => if f then SEP else VT)) level =
      specChildren l flags level
  | [], _, _ => rfl
  | c :: rest, flags, level => by
    rw [entriesChildren_cons, specChildren_cons,
      entries_spec_one c rest.isEmpty flags level,
      entries_spec rest flags level]

theorem entries_spec_one :
    ∀ (c : Node) (le : Bool) (flags : List Bool) (level : Nat),
    entriesOne c le
        (String.join (flags.map fun f => if f then SEP else VT)) level =
      specOne c le flags level
  | Node.mk d fs cs nm ft ino p si st tgt tst, le, flags, level => by
    rw [entriesOne_eq, specOne_eq]
    unfold specPfx
    by_cases h : ¬ (Node.mk d fs cs nm ft ino p si st tgt tst).is_dir ∨
        level < (Node.mk d fs cs nm ft ino p si st tgt tst).depth + 1
    · rw [if_pos h, if_pos h]
    · rw [if_neg h, if_neg h]
      have hd : (Node.mk d fs cs nm ft ino p si st tgt tst).is_dir = true := by
        by_contra hnd
        exact h (Or.inl hnd)
      have hbase : String.join (flags.map fun f => if f then SEP else VT) ++
          (if (Node.mk d fs cs nm ft ino p si st tgt tst).is_dir ∧ le
            then SEP else VT) =
          String.join ((flags ++ [le]).map fun f => if f then SEP else VT) := by
        rw [specPfx_snoc]
        congr 1
        simp [hd]
      rw [hbase]
      exact congrArg _ (entries_spec_O cs (flags ++ [le]) level)

theorem entries_spec_O :
    ∀ (o : Option (List Node)) (flags : List Bool) (level : Nat),
    entriesChildrenO o
        (String.join (flags.map fun f => if f then SEP else VT)) level =
      specChildrenO o flags level
  | Option.none, _, _ => rfl
  | some l, flags, level => entries_spec l flags level
end

/-- C9: in the rendered tree the root line carries no prefix, and every
other displayed node's line is prefixed by its ancestors' continuation
segments — the blank segment `SEP` for an ancestor that was its parent's
last child (no remaining siblings below it), the vertical segment `VT`
otherwise — followed immediately by the branch connector: `├─` (`VTRT`)
when the node has a sibling after it, `└─` (`UPRT`) when it is its
parent's last child.  First conjunct: the rendered output is exactly the
concatenation of the displayed entries' lines, each line being its
prefix, the node's display and a newline.  Second conjunct: the displayed
entries are the root with the EMPTY prefix followed by the children's
entries, whose accumulated prefixes all equal the spec's
flag-recomputed prefix `specPfx`. -/
theorem C9_prefixes (t : Tree) :
    Tree.display t =
      String.join ((Tree.entries t).map fun e => extendLine e.2 e.1) ∧
    Tree.entries t =
      (t.root, "") ::
        specChildrenO t.root.children [] (t.level.getD USIZE_MAX) := by
  constructor
  · exact display_join t
  · show (t.root, "") ::
        entriesChildrenO t.root.children "" (t.level.getD USIZE_MAX) = _
    exact congrArg (List.cons (t.root, ""))
      (entries_spec_O t.root.children [] (t.level.getD USIZE_MAX))

/-! ## Claim C6 -/

theorem depthOkB_unfold (d : Nat) (n : Node) :
    depthOkB d n = ((n.depth == d) && depthOkBO (d + 1) n.children) := by
  cases n; rfl

theorem depthOkBL_cons (d : Nat) (c : Node) (rest : List Node) :
    depthOkBL d (c :: rest) = (depthOkB d c && depthOkBL d rest) := rfl

theorem filter_cons_pos {α : Type} (p : α → Bool) (a : α) (l : List α)
    (h : p a = true) : List.filter p (a :: l) = a :: List.filter p l := by
  simp [List.filter_cons, h]

mutual
/-- Every entry produced below structural depth `d` records a depth of at
least `d`, when the stored depths agree with the structure. -/
theorem entries_depth_ge_one :
    ∀ (c : Node) (le : Bool) (d : Nat) (base : String) (k : Nat),
    depthOkB d c = true → ∀ e ∈ entriesOne c le base k, d ≤ e.1.depth
  | Node.mk dep fs cs nm ft ino p si st tgt tst, le, d, base, k => by
    intro hok e he
    rw [depthOkB_unfold, Bool.and_eq_true] at hok
    have hdep : (Node.mk dep fs cs nm ft ino p si st tgt tst).depth = d :=
      beq_iff_eq.mp hok.1
    have hok2 : depthOkBO (d + 1) cs = true := hok.2
    rw [entriesOne_eq] at he
    rcases List.mem_cons.mp he with heq | hmem
    · rw [heq]
      exact Nat.le_of_eq hdep.symm
    · by_cases hP : ¬ (Node.mk dep fs cs nm ft ino p si st tgt tst).is_dir ∨
          k < (Node.mk dep fs cs nm ft ino p si st tgt tst).depth + 1
      · rw [if_pos hP] at hmem
        exact absurd hmem (List.not_mem_nil e)
      · rw [if_neg hP] at hmem
        have hge := entries_depth_ge_O cs (d + 1) _ k hok2 e hmem
        omega

theorem entries_depth_ge_O :
    ∀ (o : Option (List Node)) (d : Nat) (base : String) (k : Nat),
    depthOkBO d o = true → ∀ e ∈ entriesChildrenO o base k, d ≤ e.1.depth
  | Option.none, d, base, k => by
    intro _ e he
    exact absurd he (List.not_mem_nil e)
  | some l, d, base, k => by
    intro hok e he
    exact entries_depth_ge_L l d base k hok e he

theorem entries_depth_ge_L :
    ∀ (l : List Node) (d : Nat) (base : String) (k : Nat),
    depthOkBL d l = true → ∀ e ∈ entriesChildren l base k, d ≤ e.1.depth
  | [], d, base, k => by
    intro _ e he
    exact absurd he (List.not_mem_nil e)
  | c :: rest, d, base, k => by
    intro hok e he
    rw [depthOkBL_cons, Bool.and_eq_true] at hok
    rw [entriesChildren_cons] at he
    rcases List.mem_append.mp he with h1 | h2
    · exact entries_depth_ge_one c rest.isEmpty d base k hok.1 e h1
    · exact entries_depth_ge_L rest d base k hok.2 e h2
end

mutual
/-- Rendering with cap `k1` produces exactly the cap-`k2` entries of depth
at most `k1`, provided the subtree sits at structural depth `d ≤ k1 ≤ k2`
and stored depths agree with the structure. -/
theorem entries_filter_one :
    ∀ (c : Node) (le : Bool) (d : Nat) (base : String) (k1 k2 : Nat),
    depthOkB d c = true → d ≤ k1 → k1 ≤ k2 →
    entriesOne c le base k1 =
      (entriesOne c le base k2).filter fun e => decide (e.1.depth ≤ k1)
  | Node.mk dep fs cs nm ft ino p si st tgt tst, le, d, base, k1, k2 => by
    intro hok hd1 hk12
    rw [depthOkB_unfold, Bool.and_eq_true] at hok
    have hdep : (Node.mk dep fs cs nm ft ino p si st tgt tst).depth = d :=
      beq_iff_eq.mp hok.1
    have hok2 : depthOkBO (d + 1) cs = true := hok.2
    rw [entriesOne_eq, entriesOne_eq]
    have hc : (fun e : Node × String => decide (e.1.depth ≤ k1))
        (Node.mk dep fs cs nm ft ino p si st tgt tst,
          base ++ (if le then UPRT else VTRT)) = true :=
      decide_eq_true (by show dep ≤ k1; have hdd : dep = d := hdep; omega)
    rw [filter_cons_pos (fun e : Node × String => decide (e.1.depth ≤ k1)) _ _ hc]
    refine congrArg _ ?_
    by_cases h1 : ¬ (Node.mk dep fs cs nm ft ino p si st tgt tst).is_dir ∨
        k1 < (Node.mk dep fs cs nm ft ino p si st tgt tst).depth + 1
    · rw [if_pos h1]
      by_cases h2 : ¬ (Node.mk dep fs cs nm ft ino p si st tgt tst).is_dir ∨
          k2 < (Node.mk dep fs cs nm ft ino p si st tgt tst).depth + 1
      · rw [if_pos h2]
        rfl
      · rw [if_neg h2]
        push_neg at h2
        rcases h1 with hnd | hlt
        · exact absurd h2.1 hnd
        · symm
          apply List.filter_eq_nil.mpr
          intro e he
          have hge := entries_depth_ge_O cs (d + 1) _ k2 hok2 e he
          simp only [decide_eq_true_eq]
          rw [hdep] at hlt
          omega
    · have h1' := h1
      push_neg at h1'
      obtain ⟨hdir', hle'⟩ := h1'
      have h2 : ¬ (¬ (Node.mk dep fs cs nm ft ino p si st tgt tst).is_dir ∨
          k2 < (Node.mk dep fs cs nm ft ino p si st tgt tst).depth + 1) := by
        push_neg
        exact ⟨hdir', le_trans hle' hk12⟩
      rw [if_neg h1, if_neg h2]
      exact entries_filter_O cs (d + 1)
        (base ++ (if (Node.mk dep fs cs nm ft ino p si st tgt tst).is_dir ∧ le
          then SEP else VT)) k1 k2 hok2 (by rw [hdep] at hle'; omega) hk12

theorem entries_filter_O :
    ∀ (o : Option (List Node)) (d : Nat) (base : String) (k1 k2 : Nat),
    depthOkBO d o = true → d ≤ k1 → k1 ≤ k2 →
    entriesChildrenO o base k1 =
      (entriesChildrenO o base k2).filter fun e => decide (e.1.depth ≤ k1)
  | Option.none, d, base, k1, k2 => by
    intro _ _ _
    rfl
  | some l, d, base, k1, k2 => by
    intro hok hd1 hk12
    exact entries_filter_L l d base k1 k2 hok hd1 hk12

theorem entries_filter_L :
    ∀ (l : List Node) (d : Nat) (base : String) (k1 k2 : Nat),
    depthOkBL d l = true → d ≤ k1 → k1 ≤ k2 →
    entriesChildren l base k1 =
      (entriesChildren l base k2).filter fun e => decide (e.1.depth ≤ k1)
  | [], d, base, k1, k2 => by
    intro _ _ _
    rfl
  | c :: rest, d, base, k1, k2 => by
    intro hok hd1 hk12
    rw [depthOkBL_cons, Bool.and_eq_true] at hok
    rw [entriesChildren_cons, entriesChildren_cons, List.filter_append,
      entries_filter_one c rest.isEmpty d base k1 k2 hok.1 hd1 hk12,
      entries_filter_L rest d base k1 k2 hok.2 hd1 hk12]
end

/-- At depth caps 0 and 1 the renderer lists the same entries — the root's
children (depth 1) are printed before the cap is ever consulted, and
neither cap lets the walk descend past them. -/
theorem entriesOne_level_01 (c : Node) (le : Bool) (base : String)
    (h : c.depth = 1) :
    entriesOne c le base 0 = entriesOne c le base 1 := by
  rw [entriesOne_eq, entriesOne_eq,
    if_pos (Or.inr (by omega)), if_pos (Or.inr (by rw [h]; omega))]

theorem entries_level_zero (l : List Node) (base : String)
    (h : depthOkBL 1 l = true) :
    entriesChildren l base 0 = entriesChildren l base 1 := by
  induction l with
  | nil => rfl
  | cons c rest ih =>
    rw [depthOkBL_cons, Bool.and_eq_true] at h
    have hdep : c.depth = 1 := by
      rw [depthOkB_unfold, Bool.and_eq_true] at h
      exact beq_iff_eq.mp h.1.1
    rw [entriesChildren_cons, entriesChildren_cons, ih h.2,
      entriesOne_level_01 c rest.isEmpty base hdep]

/-- The root `r/` holding the single file `r/a` (5 bytes). -/
def c6root : Node :=
  Node.mk 0 none (some [mkFileNode 1 ["r", "a"] 5])
    "r" (some FType.dir) none ["r"] false defaultStyle none defaultStyle

/-- C6, counterexample: the claim as stated is false.  With max display
depth `k = 0` the renderer still lists the root's depth-1 children — their
lines are printed before the depth cap is consulted, which only gates
DESCENDING — so the output does not omit all nodes of depth `> 0`: two
entries are displayed where the claim demands one. -/
theorem C6_claim_counterexample :
    (Tree.entries ⟨some 0, Order.name, c6root⟩).length = 2 ∧
      ((Tree.entries ⟨some 0, Order.name, c6root⟩).filter
        fun e => decide (e.1.depth ≤ 0)).length = 1 :=
  ⟨rfl, rfl⟩

/-- C6 (amended): the aggregated tree handed to the renderer is computed
independently of the configured depth cap (first conjunct: the assembled
root of `Tree::new` does not depend on `level`); an unset cap renders as
the cap `usize::MAX` (second conjunct); and for every cap `1 ≤ k ≤
usize::MAX` the displayed entries are exactly the unbounded entries whose
depth is at most `k` (third conjunct) — while the cap `k = 0` renders the
same lines as `k = 1`, because the root's children are printed before the
cap is consulted (fourth conjunct). -/
theorem C6_depth_cap_amended (s : List Node) (ord : Order) (lvl : Option Nat)
    (root : Node) (k : Nat) (hok : depthOkB 0 root = true) (hk1 : 1 ≤ k)
    (hk2 : k ≤ USIZE_MAX) :
    Except.map Tree.root (Tree.new s ord lvl) =
      Except.map Tree.root (Tree.new s ord Option.none) ∧
    Tree.entries ⟨Option.none, ord, root⟩ =
      Tree.entries ⟨some USIZE_MAX, ord, root⟩ ∧
    Tree.entries ⟨some k, ord, root⟩ =
      (Tree.entries ⟨Option.none, ord, root⟩).filter
        (fun e => decide (e.1.depth ≤ k)) ∧
    Tree.entries ⟨some 0, ord, root⟩ = Tree.entries ⟨some 1, ord, root⟩ := by
    refine ⟨?_, rfl, ?_, ?_⟩
    · unfold Tree.new
      cases htv : Tree.traverse s ord with
      | error e => rfl
      | ok r => rfl
    · show (root, "") :: entriesChildrenO root.children "" k =
        ((root, "") :: entriesChildrenO root.children "" USIZE_MAX).filter
          fun e => decide (e.1.depth ≤ k)
      rw [depthOkB_unfold, Bool.and_eq_true] at hok
      have hdep : root.depth = 0 := beq_iff_eq.mp hok.1
      have hc : (fun e : Node × String => decide (e.1.depth ≤ k))
          (root, "") = true :=
        decide_eq_true (by rw [hdep]; omega)
      rw [filter_cons_pos (fun e : Node × String => decide (e.1.depth ≤ k)) _ _ hc]
      exact congrArg _ (entries_filter_O root.children 1 "" k USIZE_MAX
        hok.2 hk1 hk2)
    · show (root, "") :: entriesChildrenO root.children "" 0 =
        (root, "") :: entriesChildrenO root.children "" 1
      rw [depthOkB_unfold, Bool.and_eq_true] at hok
      refine congrArg _ ?_
      cases hcc : root.children with
      | none => rfl
      | some l =>
        have hok2 : depthOkBL 1 l = true := by
          have := hok.2
          rw [hcc] at this
          exact this
        exact entries_level_zero l "" hok2

/-- The two-level tree `r/ { sub/ { b (7 bytes) } }` with structurally
correct depths. -/
def c6deep : Node :=
  Node.mk 0 none
    (some [Node.mk 1 none (some [mkFileNode 2 ["r", "sub", "b"] 7]) "sub"
      (some FType.dir) none ["r", "sub"] false defaultStyle none defaultStyle])
    "r" (some FType.dir) none ["r"] false defaultStyle none defaultStyle

/-- C6, witness: the amended theorem at the two-level tree `c6deep` with
cap `k = 1` and an arbitrary configured level `some 5` for the
size-independence conjunct. -/
theorem C6_depth_cap_witness :
    (Except.map Tree.root (Tree.new [] Order.name (some 5)) =
      Except.map Tree.root (Tree.new [] Order.name Option.none)) ∧
    Tree.entries ⟨Option.none, Order.name, c6deep⟩ =
      Tree.entries ⟨some USIZE_MAX, Order.name, c6deep⟩ ∧
    Tree.entries ⟨some 1, Order.name, c6deep⟩ =
      (Tree.entries ⟨Option.none, Order.name, c6deep⟩).filter
        (fun e => decide (e.1.depth ≤ 1)) ∧
    Tree.entries ⟨some 0, Order.name, c6deep⟩ =
      Tree.entries ⟨some 1, Order.name, c6deep⟩ :=
  C6_depth_cap_amended [] Order.name (some 5) c6deep 1 (by decide) (by decide)
    (by decide)

/-! ## Claim C5 -/

/-- A bucket key reachable from path `p` by repeatedly stepping into a
directory member of the current bucket: the keys tree assembly rooted at
`p` visits. -/
inductive ChainFrom (b : Branches) : FsPath → FsPath → Prop where
  | refl (p : FsPath) : ChainFrom b p p
  | step {p k : FsPath} {cs : List Node} {c : Node} :
      lookupB b p = some cs → c ∈ cs → c.is_dir = true →
      ChainFrom b c.path k → ChainFrom b p k

/-- A chain survives into any map that agrees on the keys extending its
start (over a coherent source map, every bucket a chain consults has the
start as a prefix). -/
theorem chain_transfer {b b' : Branches} (hcoh : Coherent b) :
    ∀ {p k : FsPath}, ChainFrom b p k →
      (∀ q, p <+: q → lookupB b' q = lookupB b q) → ChainFrom b' p k := by
  intro p k hch
  induction hch with
  | refl p => intro _; exact ChainFrom.refl p
  | @step p2 k2 cs c hq hc hd hrest ih =>
    intro hagree
    have hcp : c.path = p2 ++ [c.file_name] := hcoh p2 cs hq c hc
    refine ChainFrom.step ?_ hc hd (ih ?_)
    · rw [hagree p2 (List.prefix_refl p2)]
      exact hq
    · intro q hcq
      refine hagree q (List.IsPrefix.trans ?_ hcq)
      rw [hcp]
      exact List.prefix_append _ _

/-- Extending a chain by one directory member at its end. -/
theorem chain_snoc {b : Branches} :
    ∀ {p q : FsPath}, ChainFrom b p q →
      ∀ {cs : List Node} {c : Node}, lookupB b q = some cs → c ∈ cs →
        c.is_dir = true → ChainFrom b p c.path := by
  intro p q hch
  induction hch with
  | refl p =>
    intro cs c hq hc hd
    exact ChainFrom.step hq hc hd (ChainFrom.refl _)
  | @step p2 k2 cs0 c0 hq0 hc0 hd0 hrest ih =>
    intro cs c hq hc hd
    exact ChainFrom.step hq0 hc0 hd0 (ih hq hc hd)

/-- A key absent from the larger map is absent from a sub-map. -/
theorem containsB_of_subMap {b' b : Branches} (hs : SubMap b' b) (k : FsPath)
    (h : containsB b k = false) : containsB b' k = false := by
  rw [containsB_eq_false] at h ⊢
  rcases hs k with he | he
  · exact he.trans h
  · exact he

/-- A branch map with no key at all is empty. -/
theorem eq_nil_of_no_keys : ∀ (b : Branches),
    (∀ k, containsB b k = false) → b = []
  | [], _ => rfl
  | e :: rest, h => by
    have hh := h e.1
    rw [containsB_eq_false] at hh
    unfold lookupB at hh
    rw [if_pos rfl] at hh
    exact absurd hh (by simp)

/-- The drain property of tree assembly: every bucket key reachable from
the current node's path by directory chains has been removed when the
call returns. -/
theorem assemble_drain (f : Nat) :
    (∀ n b ord k, msize b < f → Coherent b → NamesDistinct b →
      ChainFrom b n.path k →
      containsB (assembleGo f n b ord).2 k = false) ∧
    (∀ cs b ord k, msize b < f → Coherent b → NamesDistinct b →
      cs.Pairwise (fun c1 c2 => ¬ c1.path <+: c2.path ∧ ¬ c2.path <+: c1.path) →
      (∃ c, c ∈ cs ∧ c.is_dir = true ∧ ChainFrom b c.path k) →
      containsB (assembleList f cs b ord).2 k = false) := by
  induction f with
  | zero =>
    exact ⟨fun n b ord k hm => absurd hm (by omega),
      fun cs b ord k hm => absurd hm (by omega)⟩
  | succ f ih =>
    have hGo : ∀ n b ord k, msize b < f + 1 → Coherent b → NamesDistinct b →
        ChainFrom b n.path k →
        containsB (assembleGo (f + 1) n b ord).2 k = false := by
      intro n b ord k hm hcoh hnd hch
      cases hl : lookupB b n.path with
      | none =>
        rw [assembleGo_succ_none f ord hl]
        cases hch with
        | refl =>
          rw [containsB_eq_false]
          exact hl
        | step hq hc hd hrest =>
          rw [hl] at hq
          exact absurd hq (by simp)
      | some cs =>
        rw [assembleGo_succ_some f ord hl]
        have hm1 : msize (eraseB b n.path) < f := by
          have := msize_eraseB_lt b n.path cs hl
          omega
        have hsub := subMap_eraseB b n.path
        have hcoh1 := coherent_of_subMap hsub hcoh
        have hnd1 := namesDistinct_of_subMap hsub hnd
        have hpw := bucket_pairwise_disjoint hcoh hl (hnd n.path cs hl)
        cases hch with
        | refl =>
          refine containsB_of_subMap
            ((assemble_subMap f).2 cs (eraseB b n.path) ord) n.path ?_
          rw [containsB_eq_false, lookupB_eraseB, if_pos rfl]
        | @step _ _ cs0 c hq hc hd hrest =>
          have hcs0 : cs = cs0 := Option.some.inj (hl.symm.trans hq)
          subst hcs0
          have hcp : c.path = n.path ++ [c.file_name] := hcoh n.path cs hl c hc
          have hch1 : ChainFrom (eraseB b n.path) c.path k := by
            refine chain_transfer hcoh hrest ?_
            intro q hq2
            rw [lookupB_eraseB, if_neg]
            intro hqe
            rw [hqe] at hq2
            have hle := hq2.length_le
            rw [hcp, List.length_append, List.length_singleton] at hle
            omega
          exact ih.2 cs (eraseB b n.path) ord k hm1 hcoh1 hnd1 hpw ⟨c, hc, hd, hch1⟩
    have hList : ∀ cs b ord k, msize b < f + 1 → Coherent b →
        NamesDistinct b →
        cs.Pairwise (fun c1 c2 => ¬ c1.path <+: c2.path ∧ ¬ c2.path <+: c1.path) →
        (∃ c, c ∈ cs ∧ c.is_dir = true ∧ ChainFrom b c.path k) →
        containsB (assembleList (f + 1) cs b ord).2 k = false := by
      intro cs
      induction cs with
      | nil =>
        intro b ord k hm hcoh hnd hpw hex
        obtain ⟨c, hc, _⟩ := hex
        exact absurd hc (List.not_mem_nil c)
      | cons c rest ihl =>
        intro b ord k hm hcoh hnd hpw hex
        rw [assembleList_cons]
        dsimp only
        obtain ⟨hcr, hpwr⟩ := List.pairwise_cons.mp hpw
        obtain ⟨c', hc', hd', hch'⟩ := hex
        rcases List.mem_cons.mp hc' with rfl | hcrest
        · rw [if_pos hd']
          refine containsB_of_subMap
            ((assemble_subMap (f + 1)).2 rest (assembleGo (f + 1) c' b ord).2 ord)
            k ?_
          exact hGo c' b ord k hm hcoh hnd hch'
        · by_cases hcd : c.is_dir = true
          · rw [if_pos hcd]
            have hsub2 := (assemble_subMap (f + 1)).1 c b ord
            have hm2 : msize (assembleGo (f + 1) c b ord).2 < f + 1 :=
              Nat.lt_of_le_of_lt ((assemble_msize (f + 1)).1 c b ord) hm
            have hcoh2 := coherent_of_subMap hsub2 hcoh
            have hnd2 := namesDistinct_of_subMap hsub2 hnd
            have hch2 : ChainFrom (assembleGo (f + 1) c b ord).2 c'.path k := by
              refine chain_transfer hcoh hch' ?_
              intro q hq2
              refine (assemble_frame (f + 1)).1 c b ord q hcoh ?_
              intro hcq
              rcases prefix_comparable hcq hq2 with h | h
              · exact (hcr c' hcrest).1 h
              · exact (hcr c' hcrest).2 h
            exact ihl (assembleGo (f + 1) c b ord).2 ord k hm2 hcoh2 hnd2 hpwr
              ⟨c', hcrest, hd', hch2⟩
          · rw [if_neg hcd]
            exact ihl b ord k hm hcoh hnd hpwr ⟨c', hcrest, hd', hch'⟩
    exact ⟨hGo, hList⟩

/-- Under parent-before-child arrival, every non-root descriptor's parent
path is the path of some directory descriptor of the stream. -/
theorem parentsFirst_parent_dir :
    ∀ (s : List Node) (seen : List FsPath), parentsFirstB seen s = true →
      ∀ n ∈ s, rootlikeB n = false →
      ∃ p, parentPath n.path = some p ∧ (p ∈ seen ∨ dirAt s p = true) := by
  intro s
  induction s with
  | nil =>
    intro seen _ n hn
    exact absurd hn (List.not_mem_nil n)
  | cons m rest ih =>
    intro seen hpf n hn hnr
    unfold parentsFirstB at hpf
    rw [Bool.and_eq_true] at hpf
    obtain ⟨hHead, hTail⟩ := hpf
    rcases List.mem_cons.mp hn with rfl | hn'
    · rw [hnr, Bool.false_or] at hHead
      cases hp : parentPath n.path with
      | none =>
        rw [hp] at hHead
        exact absurd hHead (by simp)
      | some p =>
        rw [hp] at hHead
        exact ⟨p, rfl, Or.inl ((memPath_iff p seen).mp hHead)⟩
    · obtain ⟨p, hpp, hloc⟩ :=
        ih (if m.is_dir then m.path :: seen else seen) hTail n hn' hnr
      refine ⟨p, hpp, ?_⟩
      rcases hloc with hseen | hda
      · by_cases hmd : m.is_dir = true
        · rw [if_pos hmd] at hseen
          rcases List.mem_cons.mp hseen with heq | hs2
          · right
            rw [heq, dirAt_cons, hmd]
            simp
          · exact Or.inl hs2
        · rw [if_neg hmd] at hseen
          exact Or.inl hseen
      · right
        rw [dirAt_cons, hda]
        simp

/-- Every key of the aggregated map is reachable from the root's path by
directory chains, under parent-before-child arrival with the unique
depth-0 directory `r`. -/
theorem finalMap_chains (s : List Node) (r : Node) (b : Branches)
    (hfil : s.filter rootlikeB = [r])
    (hchar : ∀ k, lookupB b k = finalLookup [] s k)
    (hpf : parentsFirstB [] s = true) :
    ∀ k, containsB b k = true → ChainFrom b r.path k := by
  have hkey : ∀ k, containsB b k = true → dirAt s k = true := by
    intro k hk
    rw [containsB_iff] at hk
    obtain ⟨cs, hcs⟩ := hk
    rw [hchar k, finalLookup_nil_eq] at hcs
    by_cases hda : dirAt s k = true
    · exact hda
    · rw [if_neg hda] at hcs
      exact absurd hcs (by simp)
  have hbucket : ∀ p, dirAt s p = true →
      lookupB b p = some (appendedTo s p) := by
    intro p hp
    rw [hchar p, finalLookup_nil_eq, if_pos hp]
  have main : ∀ m k, k.length < m → dirAt s k = true →
      ChainFrom b r.path k := by
    intro m
    induction m with
    | zero =>
      intro k hk
      exact absurd hk (by omega)
    | succ m ihm =>
      intro k hlen hda
      unfold dirAt at hda
      rw [List.any_eq_true] at hda
      obtain ⟨dk, hdks, hcond⟩ := hda
      rw [Bool.and_eq_true, decide_eq_true_eq] at hcond
      obtain ⟨hdkd, hdkp⟩ := hcond
      cases hrl : rootlikeB dk with
      | true =>
        have hdr : dk = r := by
          have hmem : dk ∈ s.filter rootlikeB := List.mem_filter.mpr ⟨hdks, hrl⟩
          rw [hfil] at hmem
          exact List.mem_singleton.mp hmem
        rw [← hdkp, ← hdr]
        exact ChainFrom.refl dk.path
      | false =>
        obtain ⟨p, hpp, hloc⟩ := parentsFirst_parent_dir s [] hpf dk hdks hrl
        rcases hloc with hseen | hdap
        · exact absurd hseen (List.not_mem_nil p)
        · have hplen : p.length + 1 = dk.path.length := parentPath_length dk.path p hpp
          have hchp : ChainFrom b r.path p := by
            refine ihm p ?_ hdap
            rw [hdkp] at hplen
            omega
          have hmemb : dk ∈ appendedTo s p := by
            unfold appendedTo
            refine List.mem_filter.mpr ⟨hdks, ?_⟩
            rw [hrl]
            simp [hpp]
          have hstep := chain_snoc hchp (hbucket p hdap) hmemb hdkd
          rw [← hdkp]
          exact hstep
  intro k hk
  exact main (k.length + 1) k (by omega) (hkey k hk)

/-- C5, counterexample: the claim as stated is false.  The stream
`r/a/c (file), r/a (dir), r/ (root)` — the walker's entries of a real
tree, arriving out of order — leaves the bucket keyed `r/a` in the Branch
Buffer after assembly completes: `c` was discarded when it arrived before
any bucket existed (creating empty bucket `r/a`), `r/a` itself was
discarded when it arrived before the root's bucket existed, so assembly
never reaches bucket `r/a` and the final mapping is not empty. -/
theorem C5_claim_counterexample :
    Except.map (fun rb => rb.2)
      (assembledComponents
        [mkFileNode 2 ["r", "a", "c"] 1, mkDirNode 1 ["r", "a"],
          mkDirNode 0 ["r"]] Order.name) =
      Except.ok [(["r", "a"], [])] ∧
    ((["r", "a"], ([] : List Node)) :: []) ≠ ([] : Branches) :=
  ⟨rfl, List.cons_ne_nil _ _⟩

/-- C5 (amended): for parent-before-child arrival orders (every descriptor
preceded by a directory at its parent path), with walker-shaped
descriptors (path ends in the file name, paths distinct, exactly one
depth-0 directory), the Branch Buffer is fully drained: aggregation plus
assembly succeeds and leaves the mapping empty.  For other arrival orders
the buffer can retain buckets (see the counterexample): a descriptor
discarded by the parent-bucket bug can orphan the bucket keyed by its
path. -/
theorem C5_drain_amended (s : List Node) (ord : Order)
    (hpf : parentsFirstB [] s = true) (hwf : wfStreamB s = true)
    (hnodup : (s.map Node.path).Nodup) (huniq : s.countP rootlikeB = 1) :
    ∃ rb, assembledComponents s ord = Except.ok rb ∧ rb.2 = [] := by
  obtain ⟨r, b, hagg, hfil, hchar⟩ := aggregate_char s hpf huniq
  have hcoh : Coherent b := finalMap_coherent hwf hchar
  have hnd : NamesDistinct b := finalMap_names hwf hnodup hchar
  have hchain := finalMap_chains s r b hfil hchar hpf
  refine ⟨assemble_tree r b ord, ?_, ?_⟩
  · unfold assembledComponents
    rw [hagg]
  · apply eq_nil_of_no_keys
    intro k
    unfold assemble_tree
    cases hck : containsB b k with
    | false =>
      exact containsB_of_subMap ((assemble_subMap (msize b + 1)).1 r b ord) k hck
    | true =>
      exact (assemble_drain (msize b + 1)).1 r b ord k (by omega) hcoh hnd
        (hchain k hck)

/-- C5, witness: the amended theorem at the parent-before-child stream
`r/, r/a (10 bytes), r/sub/, r/sub/b (20 bytes)`. -/
theorem C5_drain_witness :
    ∃ rb, assembledComponents
        [mkDirNode 0 ["r"], mkFileNode 1 ["r", "a"] 10,
          mkDirNode 1 ["r", "sub"], mkFileNode 2 ["r", "sub", "b"] 20]
        Order.name = Except.ok rb ∧ rb.2 = [] :=
  C5_drain_amended _ Order.name (by decide) (by decide) (by decide) (by decide)

end Erdtree
